import Mathlib
set_option maxRecDepth 100000

/-!
# Verification of the handwritten A4 line-breaking and pagination engine

Shallow embedding of `handwritten_composer.py` (class `HandwrittenComposer`)
together with the configuration values of `config.py` (class `LayoutConfig`).

Python strings are modelled as `List Char`; Python floats are modelled as
exact rationals `ℚ`.  The character-width calculator (`char_width.py`,
class `CharWidthCalculator`) is not part of the reviewed sources; following
the specification it is modelled as an arbitrary per-character width
function `cw : Char → ℚ`, with text width the sum of character widths.
All composer functions are parameterized by `cw`.

The `while` loops of `compose_block` and `compose_page` are not guaranteed
to terminate in the source (this is one of the findings below), so they are
embedded with an explicit fuel parameter and return `Option`: `none` means
the Python loop would not have terminated within that many iterations.
-/

namespace Handwritten

/-- Rational addition in a kernel-reducible form (the library's `Rat.add` is
`@[irreducible]`, which blocks `decide`-style evaluation of the embedding on
concrete inputs).  `qAdd_eq` shows it is exactly `+`. -/
def qAdd (a b : ℚ) : ℚ := mkRat (a.num * b.den + b.num * a.den) (a.den * b.den)

/-- Rational subtraction in a kernel-reducible form; `qSub_eq` shows it is
exactly `-`. -/
def qSub (a b : ℚ) : ℚ := mkRat (a.num * b.den - b.num * a.den) (a.den * b.den)

/-- Rational division in a kernel-reducible form; `qDiv_eq` shows it is
exactly `/`. -/
def qDiv (a b : ℚ) : ℚ := Rat.divInt (a.num * b.den) (a.den * b.num)

@[simp] theorem qAdd_eq (a b : ℚ) : qAdd a b = a + b := (Rat.add_def' a b).symm

@[simp] theorem qSub_eq (a b : ℚ) : qSub a b = a - b := (Rat.sub_def' a b).symm

@[simp] theorem qDiv_eq (a b : ℚ) : qDiv a b = a / b := (Rat.div_def' a b).symm

/-- The punctuation-character set used throughout `handwritten_composer.py`
(the literal `'.,;:!?):]}，。；：！？）：】》、'`, e.g. lines 248, 254, 295,
302, 340, 344 of the source; duplicate characters in the literal are
harmless for membership). -/
def punctChars : List Char := ".,;:!?):]\x7d，。；：！？）：】》、".data

/-- `HandwrittenComposer._is_chinese_char`: `'一' <= char <= '鿿'`. -/
def isChineseChar (c : Char) : Bool := 0x4e00 ≤ c.toNat ∧ c.toNat ≤ 0x9fff

/-- Characters stripped by Python's `str.strip()` / `str.lstrip()` with no
argument: the Unicode whitespace characters as recognized by `str.isspace`. -/
def isPySpace (c : Char) : Bool :=
  let n := c.toNat
  (9 ≤ n ∧ n ≤ 13) ∨ (28 ≤ n ∧ n ≤ 31) ∨ n = 32 ∨ n = 133 ∨ n = 160 ∨
    n = 0x1680 ∨ (0x2000 ≤ n ∧ n ≤ 0x200A) ∨ n = 0x2028 ∨ n = 0x2029 ∨
    n = 0x202F ∨ n = 0x205F ∨ n = 0x3000

/-- Python `text.lstrip()`. -/
def pyLStrip (l : List Char) : List Char := l.dropWhile isPySpace

/-- Python `text.strip()`. -/
def pyStrip (l : List Char) : List Char :=
  ((l.dropWhile isPySpace).reverse.dropWhile isPySpace).reverse

/-- Python `str.lower()` restricted to its effect on ASCII letters (the
hyphenation tables it is compared against are all-ASCII). -/
def pyLower (c : Char) : Char :=
  if 'A' ≤ c ∧ c ≤ 'Z' then Char.ofNat (c.toNat + 32) else c

/-- Modelled from the spec: `char_width.py` (`CharWidthCalculator`) is absent
from the reviewed sources; §4.1 of the spec specifies `textWidth` as the sum
of per-character widths under an arbitrary font-dependent per-character
metric.  The metric itself is the parameter `cw`.
(`textWidth_eq_sum` identifies the fold with the list sum.) -/
def textWidth (cw : Char → ℚ) (l : List Char) : ℚ := (l.map cw).foldr qAdd 0

@[simp] theorem textWidth_eq_sum (cw : Char → ℚ) (l : List Char) :
    textWidth cw l = (l.map cw).sum := by
  induction l with
  | nil => rfl
  | cons c cs ih => simp [textWidth, List.map_cons, List.foldr_cons] at ih ⊢; simp [ih]

/-- Layout configuration: the fields of `config.py`'s `LayoutConfig` that the
composer reads (`text_area_width = 698`, `paragraph_indent = 43.6`,
`first_page_lines = 27`, `normal_page_lines = 27`). -/
structure LayoutConfig where
  textAreaWidth : ℚ
  paragraphIndent : ℚ
  firstPageLines : Nat
  normalPageLines : Nat
deriving DecidableEq

/-- The default `LayoutConfig()` of `config.py`. -/
def defaultConfig : LayoutConfig := ⟨698, mkRat 436 10, 27, 27⟩

/-- Token kinds assigned by the tokenization step of `fill_line_handwritten`
(`'chinese'`, `'space'`, `'punctuation'`, `'english'`). -/
inductive TokKind where
  | chinese
  | space
  | punct
  | word
deriving DecidableEq

/-- A token of the tokenization step of `fill_line_handwritten`.  The source
also records `start`/`end` indices, which are never read afterwards and are
omitted. -/
structure Tok where
  text : List Char
  kind : TokKind
deriving DecidableEq

/-- A character that continues an `'english'` token run: not a space, not in
the punctuation set, not a Chinese character
(`fill_line_handwritten`, line 302). -/
def isWordChar (c : Char) : Bool := ¬(c = ' ' ∨ c ∈ punctChars ∨ isChineseChar c)

/-- The tokenization step (step 1) of `fill_line_handwritten`,
lines 285–305 of `handwritten_composer.py`, with a structural fuel
parameter standing for the loop's progress bound (each iteration of the
source loop consumes at least one character, so fuel `l.length` — as
supplied by `tokenize` — is always sufficient; the `0, _ :: _` branch is
unreachable then). -/
def tokenizeFuel : Nat → List Char → List Tok
  | _, [] => []
  | 0, _ :: _ => []
  | fuel + 1, c :: rest =>
    if isChineseChar c then ⟨[c], .chinese⟩ :: tokenizeFuel fuel rest
    else if c = ' ' then ⟨[c], .space⟩ :: tokenizeFuel fuel rest
    else if c ∈ punctChars then ⟨[c], .punct⟩ :: tokenizeFuel fuel rest
    else ⟨c :: rest.takeWhile isWordChar, .word⟩ :: tokenizeFuel fuel (rest.dropWhile isWordChar)

/-- The tokenization step of `fill_line_handwritten` (lines 285–305). -/
def tokenize (l : List Char) : List Tok := tokenizeFuel l.length l

/-- Concatenation of the texts of a token list (`''.join(w['text'] for w in ws)`). -/
def concatToks (ts : List Tok) : List Char := (ts.map Tok.text).flatten

/-- The `special_words` table of `find_best_hyphen_position`
(lines 132–168 of `handwritten_composer.py`). -/
def specialWords : List (List Char × Nat) :=
  [("chatgpt".data, 4), ("artificial".data, 4), ("intelligence".data, 5),
   ("transformer".data, 5), ("deepmind".data, 4), ("tensorflow".data, 6),
   ("pytorch".data, 2), ("machine".data, 2), ("learning".data, 4),
   ("neural".data, 3), ("network".data, 3), ("algorithm".data, 4),
   ("computer".data, 3), ("technology".data, 4), ("development".data, 6),
   ("processing".data, 4), ("microsoft".data, 5), ("general".data, 3),
   ("system".data, 3), ("language".data, 4), ("natural".data, 3),
   ("generation".data, 4), ("foundation".data, 4), ("architecture".data, 5),
   ("understanding".data, 5), ("information".data, 2), ("application".data, 3),
   ("optimization".data, 4), ("integration".data, 4), ("implementation".data, 2),
   ("classification".data, 5), ("interpretation".data, 6),
   ("representation".data, 3), ("communication".data, 3),
   ("recommendation".data, 3)]

/-- The `common_prefixes` list of `find_best_hyphen_position` (line 181). -/
def commonPrefixes : List (List Char) :=
  ["pre".data, "pro".data, "anti".data, "auto".data, "co".data, "de".data,
   "dis".data, "en".data, "em".data, "fore".data, "in".data, "im".data,
   "il".data, "ir".data, "inter".data, "mid".data, "mis".data, "non".data,
   "over".data, "out".data, "post".data, "re".data, "semi".data, "sub".data,
   "super".data, "trans".data, "un".data, "under".data]

/-- The `common_suffixes` list of `find_best_hyphen_position` (line 182). -/
def commonSuffixes : List (List Char) :=
  ["able".data, "ible".data, "al".data, "ial".data, "ed".data, "en".data,
   "er".data, "est".data, "ful".data, "ic".data, "ing".data, "ion".data,
   "tion".data, "ation".data, "ition".data, "ity".data, "ty".data,
   "ive".data, "ative".data, "itive".data, "less".data, "ly".data,
   "ment".data, "ness".data, "ous".data, "eous".data, "ious".data,
   "s".data, "es".data, "y".data]

/-- `sorted(common_prefixes, key=len, reverse=True)`: Python's stable sort of
`commonPrefixes` by descending length.  (Only the length of the first match
is ever used, so any length-descending permutation yields the same
hyphenation positions.) -/
def sortedPrefixes : List (List Char) :=
  ["inter".data, "super".data, "trans".data, "under".data, "anti".data,
   "auto".data, "fore".data, "over".data, "post".data, "semi".data,
   "pre".data, "pro".data, "dis".data, "mid".data, "mis".data, "non".data,
   "out".data, "sub".data, "co".data, "de".data, "en".data, "em".data,
   "in".data, "im".data, "il".data, "ir".data, "re".data, "un".data]

/-- `sorted(common_suffixes, key=len, reverse=True)`: Python's stable sort of
`commonSuffixes` by descending length. -/
def sortedSuffixes : List (List Char) :=
  ["ation".data, "ition".data, "ative".data, "itive".data, "able".data,
   "ible".data, "tion".data, "less".data, "ment".data, "ness".data,
   "eous".data, "ious".data, "ial".data, "est".data, "ful".data,
   "ing".data, "ion".data, "ity".data, "ive".data, "ous".data,
   "al".data, "ed".data, "en".data, "er".data, "ic".data, "ty".data,
   "ly".data, "es".data, "s".data, "y".data]

/-- The prefix scan of `find_best_hyphen_position` (lines 185–187): return
the length of the first prefix in the (length-descending) list that matches
and leaves at least 2 characters on each side. -/
def findPrefixSplit (wl : List Char) (wlen : Nat) : List (List Char) → Option Nat
  | [] => none
  | p :: ps =>
    if p.isPrefixOf wl ∧ 2 ≤ p.length ∧ p.length + 2 ≤ wlen then some p.length
    else findPrefixSplit wl wlen ps

/-- The suffix scan of `find_best_hyphen_position` (lines 190–192): return
`len(word) - len(suffix)` for the first suffix in the (length-descending)
list that matches and leaves at least 2 characters on each side. -/
def findSuffixSplit (wl : List Char) (wlen : Nat) : List (List Char) → Option Nat
  | [] => none
  | s :: ss =>
    if s.isSuffixOf wl ∧ 2 ≤ s.length ∧ s.length + 2 ≤ wlen then some (wlen - s.length)
    else findSuffixSplit wl wlen ss

/-- The midpoint fallback of `find_best_hyphen_position` (lines 194–203):
`len(word) // 2` clamped into `[2, len(word) - 2]`.  (The `elif` branch is
only reached when `len(word) // 2 ≥ 2`, so the natural-number subtraction
agrees with Python's integer arithmetic.) -/
def midpointSplit (wlen : Nat) : Nat :=
  let best := wlen / 2
  if best < 2 then 2
  else if best > wlen - 2 then wlen - 2
  else best

/-- The general (non-table) part of `find_best_hyphen_position`:
prefix scan, then suffix scan, then midpoint. -/
def generalHyphenPosition (wl : List Char) (wlen : Nat) : Nat :=
  match findPrefixSplit wl wlen sortedPrefixes with
  | some p => p
  | none =>
    match findSuffixSplit wl wlen sortedSuffixes with
    | some p => p
    | none => midpointSplit wlen

/-- `HandwrittenComposer.find_best_hyphen_position` (lines 127–203).
The table is consulted first; a table hit is used only if
`2 <= pos <= len(word) - 2` (comparisons over ℤ as in Python),
otherwise the general rules apply. -/
def findBestHyphenPosition (word : List Char) : Nat :=
  let wl := word.map pyLower
  match (specialWords.find? (fun e => e.1 = wl)).map Prod.snd with
  | some pos =>
    if 2 ≤ (pos : Int) ∧ (pos : Int) ≤ (word.length : Int) - 2 then pos
    else generalHyphenPosition wl word.length
  | none => generalHyphenPosition wl word.length

/-- The `protected_words` set of `try_hyphenate_word` (lines 211–216). -/
def protectedWords : List (List Char) :=
  ["openai".data, "google".data, "deepmind".data, "chatgpt".data,
   "claude".data, "bert".data, "transformer".data, "attention".data,
   "multihead".data, "alphafold".data, "waymo".data, "tesla".data,
   "apollo".data, "pytorch".data, "tensorflow".data, "nvidia".data,
   "microsoft".data, "artificial".data, "intelligence".data,
   "lamda".data, "palm".data]

/-- Result dictionary of `try_hyphenate_word`
(`{'fitted': …, 'remaining': …, 'width': …}`). -/
structure HyphenRes where
  fitted : List Char
  remaining : List Char
  width : ℚ
deriving DecidableEq

/-- `HandwrittenComposer.try_hyphenate_word` (lines 205–238). -/
def tryHyphenateWord (cw : Char → ℚ) (word : List Char) (availableWidth : ℚ) :
    Option HyphenRes :=
  if word.length ≤ 6 then none
  else if word.map pyLower ∈ protectedWords then none
  else
    let pos := findBestHyphenPosition word
    let firstWithHyphen := word.take pos ++ ['-']
    let firstWidth := textWidth cw firstWithHyphen
    if firstWidth ≤ availableWidth then
      some ⟨firstWithHyphen, word.drop pos, firstWidth⟩
    else none

/-- The greedy token-filling loop (step 2) of `fill_line_handwritten`
(lines 308–331): accumulates accepted text and width; on overflow of a long
`'english'` token attempts hyphenation, replacing the head token's text by
the unfitted part; returns `(current_line, current_width, words[word_index:])`. -/
def fillWords (cw : Char → ℚ) (avail : ℚ) :
    List Tok → List Char → ℚ → (List Char × ℚ × List Tok)
  | [], line, width => (line, width, [])
  | t :: rest, line, width =>
    let ww := textWidth cw t.text
    if qAdd width ww > avail then
      if t.kind = .word ∧ 6 < t.text.length then
        match tryHyphenateWord cw t.text (qSub avail width) with
        | some r => (line ++ r.fitted, qAdd width r.width, ⟨r.remaining, t.kind⟩ :: rest)
        | none => (line, width, t :: rest)
      else (line, width, t :: rest)
    else fillWords cw avail rest (line ++ t.text) (qAdd width ww)

/-- A character eligible to be relocated by the orphan-punctuation fix-up:
not a space and not punctuation (line 344). -/
def isEligibleChar (c : Char) : Bool := ¬(c = ' ' ∨ c ∈ punctChars)

/-- Split `line` as `pre ++ [x] ++ suf` where `x` is the **last** eligible
(non-space, non-punctuation) character; `none` if no character is eligible.
This is the backwards scan of lines 342–350. -/
def splitLastEligible : List Char → Option (List Char × Char × List Char)
  | [] => none
  | c :: rest =>
    match splitLastEligible rest with
    | some (p, x, s) => some (c :: p, x, s)
    | none => if isEligibleChar c then some ([], c, rest) else none

/-- The CSS classes of the layout lines (`'bt1'`, `'bt2'`, `'zw1'`, `'zw2'`,
`'zw3'` — title 1, title 2, paragraph start / continue / end). -/
inductive CssClass where
  | bt1
  | bt2
  | zw1
  | zw2
  | zw3
deriving DecidableEq

/-- The first-line indent applied by `fill_line_handwritten` (line 273):
the paragraph indent exactly for class `'zw1'`. -/
def lineIndent (cfg : LayoutConfig) (css : CssClass) : ℚ :=
  if css = .zw1 then cfg.paragraphIndent else 0

/-- `HandwrittenComposer.fill_line_handwritten` (lines 262–356).
Returns `(current_line, remaining_text, actual_width, utilization)`. -/
def fillLineHandwritten (cw : Char → ℚ) (cfg : LayoutConfig)
    (text : List Char) (css : CssClass) : List Char × List Char × ℚ × ℚ :=
  let maxW := cfg.textAreaWidth
  let indent := lineIndent cfg css
  let avail := qSub maxW indent
  if pyStrip text = [] then ([], [], indent, 0)
  else
    let (line0, width0, rest) := fillWords cw avail (tokenize text) [] 0
    let (line1, width1, rem1) :=
      match rest with
      | [] => (line0, width0, ([] : List Char))
      | _ :: _ =>
        match concatToks rest with
        | [] => (line0, width0, concatToks rest)
        | r0 :: _ =>
          if r0 ∈ punctChars then
            match splitLastEligible line0 with
            | some (p, x, s) => (p ++ s, qSub width0 (cw x), x :: concatToks rest)
            | none => (line0, width0, concatToks rest)
          else (line0, width0, concatToks rest)
    let actualWidth := qAdd width1 indent
    (line1, pyLStrip rem1, actualWidth, if maxW > 0 then qDiv actualWidth maxW else 0)

/-- Block kinds (`block.type`: `'h1'`, `'h2'`, `'paragraph'`).  The source
raises `ValueError` on any other string; the closed inductive makes that
branch unreachable. -/
inductive BlockType where
  | h1
  | h2
  | paragraph
deriving DecidableEq

/-- `ContentBlock` of `handwritten_composer.py`.  The `metadata` dictionary
is read only through `block.metadata and block.metadata.get('is_continuation',
False)`, so it is modelled by that boolean. -/
structure ContentBlock where
  type : BlockType
  text : List Char
  isContinuation : Bool
deriving DecidableEq

/-- `LayoutLine` of `handwritten_composer.py`. -/
structure LayoutLine where
  text : List Char
  cssClass : CssClass
  width : ℚ
  utilization : ℚ
  lineNumber : Nat
  lineDisplay : List Char
deriving DecidableEq

/-- `Page` of `handwritten_composer.py`.  `remainingLines` is
`max_lines - len(lines)`, a Python `int`, hence `ℤ`. -/
structure Page where
  lines : List LayoutLine
  pageNumber : Nat
  lineCount : Nat
  remainingLines : Int
deriving DecidableEq

/-- The css class of a heading block (`create_line_space`). -/
def headingCss (t : BlockType) : CssClass := if t = .h1 then .bt1 else .bt2

/-- The paragraph loop of `compose_block` (lines 420–456): repeatedly fill
one line from the remaining text.  Each produced `LayoutLine` carries the
style chosen *before* the fill (`zw1` for the paragraph's first line, else
`zw3` if the whole remaining text fits in the available width, else `zw2`).
The loop need not terminate in the source, hence the fuel; `none` models
non-termination. -/
def composeBlockLoop (cw : Char → ℚ) (cfg : LayoutConfig) :
    Nat → List Char → Bool → Nat → Option (List LayoutLine)
  | fuel, remaining, isFirst, lineNo =>
    if remaining = [] then some []
    else
      match fuel with
      | 0 => none
      | fuel' + 1 =>
        let indent := if isFirst then cfg.paragraphIndent else (0 : ℚ)
        let avail := qSub cfg.textAreaWidth indent
        let isLast := textWidth cw remaining ≤ avail
        let lcss := if isFirst then CssClass.zw1 else if isLast then CssClass.zw3 else CssClass.zw2
        let r := fillLineHandwritten cw cfg remaining lcss
        if r.1 = [] ∧ r.2.1 = [] then some []
        else if pyStrip r.1 = [] ∧ pyStrip r.2.1 = [] then some []
        else
          match composeBlockLoop cw cfg fuel' r.2.1 false (lineNo + 1) with
          | some restLines =>
            some (⟨r.1, lcss, r.2.2.1, r.2.2.2, lineNo, (toString lineNo).data⟩ :: restLines)
          | none => none

/-- The final fix-up of `compose_block` (lines 459–460): if the last line's
class is not `bt1`/`bt2`/`zw3`, set it to `zw3`. -/
def fixLastClass : List LayoutLine → List LayoutLine
  | [] => []
  | [l] =>
    if l.cssClass = .bt1 ∨ l.cssClass = .bt2 ∨ l.cssClass = .zw3 then [l]
    else [⟨l.text, .zw3, l.width, l.utilization, l.lineNumber, l.lineDisplay⟩]
  | l :: l' :: ls => l :: fixLastClass (l' :: ls)

/-- The single `LayoutLine` emitted for a heading block
(`compose_block`, lines 394–410): the heading text verbatim, css `bt1`/`bt2`,
width and utilization from the text width, display `"{n}+{n+1}"`. -/
def titleLayoutLine (cw : Char → ℚ) (cfg : LayoutConfig)
    (block : ContentBlock) (lineNo : Nat) : LayoutLine :=
  ⟨block.text, headingCss block.type, textWidth cw block.text,
   qDiv (textWidth cw block.text) cfg.textAreaWidth, lineNo,
   (toString lineNo ++ "+" ++ toString (lineNo + 1)).data⟩

/-- `HandwrittenComposer.compose_block` (lines 381–465).  Returns the layout
lines and the consumed line count (`2` for a heading, the number of emitted
lines for a paragraph). -/
def composeBlock (cw : Char → ℚ) (cfg : LayoutConfig) (fuel : Nat)
    (block : ContentBlock) (startLine : Nat) : Option (List LayoutLine × Nat) :=
  match block.type with
  | .h1 | .h2 => some ([titleLayoutLine cw cfg block startLine], 2)
  | .paragraph =>
    match composeBlockLoop cw cfg fuel (pyStrip block.text) (!block.isContinuation) startLine with
    | some ls => some (fixLastClass ls, ls.length)
    | none => none

/-- The inner `for` loop of `compose_page` (lines 521–526): take the longest
prefix of the block's lines that fits (the `k`-th further line fits when
`current_line_number + consumed ≤ max_lines`); returns the prefix and its
length.  Call with accumulator `k = 0`. -/
def takeFit (maxL current : Nat) : List LayoutLine → Nat → (List LayoutLine × Nat)
  | [], k => ([], k)
  | l :: ls, k =>
    if current + k ≤ maxL then
      let r := takeFit maxL current ls (k + 1)
      (l :: r.1, r.2)
    else ([], k)

/-- The `while` loop of `compose_page` (lines 487–556), operating on the
still-unconsumed suffix of the block list (the source's `block_index` is the
number of elements already dropped; its in-place replacement
`content_blocks[block_index] = ContentBlock(...)` becomes replacing the head).
Returns `(lines, remaining blocks)`.  The loop need not terminate in the
source (a paragraph block whose `compose_block` yields no lines is never
advanced past), hence the fuel. -/
def composePageLoop (cw : Char → ℚ) (cfg : LayoutConfig) (maxL : Nat) (blockFuel : Nat) :
    Nat → List ContentBlock → List LayoutLine → Nat →
    Option (List LayoutLine × List ContentBlock)
  | _, [], lines, _ => some (lines, [])
  | 0, _ :: _, _, _ => none
  | fuel + 1, block :: rest, lines, current =>
    if block.type = .h1 ∨ block.type = .h2 then
      if current + 1 > maxL then some (lines, block :: rest)
      else
        match composeBlock cw cfg blockFuel block current with
        | none => none
        | some (bls, used) => composePageLoop cw cfg maxL blockFuel fuel rest (lines ++ bls) (current + used)
    else
      if (maxL : Int) - current + 1 ≤ 0 then some (lines, block :: rest)
      else
        match composeBlock cw cfg blockFuel block current with
        | none => none
        | some (bls, _) =>
          let f := takeFit maxL current bls 0
          if f.1 ≠ [] then
            let lines' := lines ++ f.1
            let current' := current + f.2
            if f.2 < bls.length then
              let remText := ((bls.drop f.2).map LayoutLine.text).flatten
              let q' := ContentBlock.mk .paragraph remText true :: rest
              if current' ≥ maxL then some (lines', q')
              else composePageLoop cw cfg maxL blockFuel fuel q' lines' current'
            else
              if current' ≥ maxL then some (lines', rest)
              else composePageLoop cw cfg maxL blockFuel fuel rest lines' current'
          else
            if current ≥ maxL then some (lines, block :: rest)
            else composePageLoop cw cfg maxL blockFuel fuel (block :: rest) lines current

/-- The per-page line budget (`create_page_counter`): the first page uses
`first_page_lines`, every other page `normal_page_lines`. -/
def pageCapacity (cfg : LayoutConfig) (pageNumber : Nat) : Nat :=
  if pageNumber = 1 then cfg.firstPageLines else cfg.normalPageLines

/-- `HandwrittenComposer.compose_page` (lines 467–571).  Returns the `Page`
and the remaining blocks. -/
def composePage (cw : Char → ℚ) (cfg : LayoutConfig) (blockFuel pageFuel : Nat)
    (queue : List ContentBlock) (pageNumber : Nat) :
    Option (Page × List ContentBlock) :=
  let maxL := pageCapacity cfg pageNumber
  match composePageLoop cw cfg maxL blockFuel pageFuel queue [] 1 with
  | some (lines, rem) =>
    some (⟨lines, pageNumber, lines.length, (maxL : Int) - lines.length⟩, rem)
  | none => none

/-- The `while` loop of `compose_document` (lines 589–596): compose pages
with incrementing page numbers while blocks remain; after composing a page,
stop (without error) once the incremented page number exceeds 20.  Returns
the pages together with the blocks still unconsumed at that point (`[]` on a
normal exit).  `iters` is a structural recursion counter; since the
`page_number > 20` guard bounds the source loop by 20 iterations, any
`iters ≥ 20 - pageNumber` makes the fuel branch (`iters = 0`) unreachable,
as in the call from `composeDocument`. -/
def composeDocLoop (cw : Char → ℚ) (cfg : LayoutConfig) (blockFuel pageFuel : Nat) :
    Nat → List ContentBlock → Nat → Option (List Page × List ContentBlock)
  | _, [], _ => some ([], [])
  | iters, q :: qs, pageNumber =>
    match composePage cw cfg blockFuel pageFuel (q :: qs) pageNumber with
    | none => none
    | some (page, rem) =>
      if 20 < pageNumber + 1 then some ([page], rem)
      else
        match iters with
        | 0 => none
        | iters' + 1 =>
          match composeDocLoop cw cfg blockFuel pageFuel iters' rem (pageNumber + 1) with
          | some (ps, r) => some (page :: ps, r)
          | none => none

/-- `HandwrittenComposer.compose_document` (lines 573–604): the page list
returned to the caller.  The source copies the caller's block list before
composing (`content_blocks.copy()`), so the queue mutations act on the copy;
in the pure embedding the copy is the identity. -/
def composeDocument (cw : Char → ℚ) (cfg : LayoutConfig) (blockFuel pageFuel : Nat)
    (contentBlocks : List ContentBlock) : Option (List Page) :=
  (composeDocLoop cw cfg blockFuel pageFuel 20 contentBlocks 1).map Prod.fst

/-! ## Concrete instances used by witnesses and counterexamples

`char_width.py` is absent from the reviewed sources, so concrete runs use a
representative instance of the spec's width model (§4.1): a fixed full-width
unit (21 px at the configured 15.9 pt font) for CJK code points, a uniform
10 px for everything else.  The findings below do not depend on these exact
numbers, only on widths being positive. -/

/-- A concrete per-character width instance (see section comment). -/
def cwDemo (c : Char) : ℚ := if 0x2E80 ≤ c.toNat then 21 else 10

/-- A single 140-character token (e.g. a long unbroken identifier): wider
than the 698 px text area, and still too wide after midpoint hyphenation
(71 glyphs ≥ 710 px). -/
def longToken : List Char := List.replicate 140 'a'

/-- `n` copies of a one-character `h1` heading block. -/
def hBlocks (n : Nat) : List ContentBlock :=
  (List.range n).map (fun _ => ⟨.h1, "T".data, false⟩)

/-- `compose_block`'s paragraph loop exits immediately on empty remaining text. -/
theorem composeBlockLoop_nil (cw : Char → ℚ) (cfg : LayoutConfig)
    (fuel : Nat) (isFirst : Bool) (lineNo : Nat) :
    composeBlockLoop cw cfg fuel [] isFirst lineNo = some [] := by
  rw [composeBlockLoop.eq_def]
  simp

/-! ## C10: whitespace-only input -/

/-- **C10**: on input that is empty or whitespace-only, `fill_line_handwritten`
returns an empty line text and empty remainder with `actual_width` equal to the
style's indent (the paragraph indent for a `zw1`/ParaFirst line, `0` otherwise)
and utilization `0`; and `compose_block` on such a paragraph emits no layout
line (it returns an empty line list and zero consumed lines, at every fuel). -/
theorem fillLine_whitespace_only (cw : Char → ℚ) (cfg : LayoutConfig) :
    (∀ text css, pyStrip text = [] →
      fillLineHandwritten cw cfg text css = ([], [], lineIndent cfg css, 0)) ∧
    (∀ fuel startLine (b : ContentBlock), b.type = .paragraph → pyStrip b.text = [] →
      composeBlock cw cfg fuel b startLine = some ([], 0)) := by
  constructor
  · intro text css h
    simp [fillLineHandwritten, h]
  · intro fuel startLine b hty h
    cases b with
    | mk ty tx cont =>
      cases hty
      simp only at h
      simp [composeBlock, h, composeBlockLoop_nil, fixLastClass]

/-- Witness for `fillLine_whitespace_only` at a concrete whitespace-only input. -/
theorem fillLine_whitespace_only_witness :
    fillLineHandwritten cwDemo defaultConfig " \t ".data .zw1 = ([], [], mkRat 436 10, 0) ∧
    composeBlock cwDemo defaultConfig 7 ⟨.paragraph, " \t ".data, false⟩ 3 = some ([], 0) := by
  obtain ⟨h1, h2⟩ := fillLine_whitespace_only cwDemo defaultConfig
  refine ⟨?_, h2 7 3 _ rfl (by decide)⟩
  have := h1 " \t ".data .zw1 (by decide)
  simpa [lineIndent, defaultConfig] using this

/-! ## C1: zero-progress call and livelock -/

/-- Evaluation fact: the oversized token is not placed (ParaFirst style). -/
theorem fillLine_longToken_zw1 :
    fillLineHandwritten cwDemo defaultConfig longToken .zw1 =
      ([], longToken, mkRat 436 10, qDiv (mkRat 436 10) 698) := by decide

/-- Evaluation fact: the oversized token is not placed (no-indent styles). -/
theorem fillLine_longToken_zw2 :
    fillLineHandwritten cwDemo defaultConfig longToken .zw2 = ([], longToken, 0, 0) := by decide

/-- **C1** (refuting the progress guarantee): on the single oversized,
non-hyphenatable token `longToken`, `fill_line_handwritten` returns an empty
line text together with a remainder equal to the entire input — the oversized
token is *not* placed, no token is consumed — and consequently the paragraph
loop of `compose_block` never terminates on this input (it returns `none`,
i.e. exhausts every fuel, appending empty lines forever). -/
theorem fillLine_zero_progress_livelock :
    fillLineHandwritten cwDemo defaultConfig longToken .zw1 =
      ([], longToken, mkRat 436 10, qDiv (mkRat 436 10) 698) ∧
    (∀ fuel startLine isFirst,
      composeBlockLoop cwDemo defaultConfig fuel longToken isFirst startLine = none) ∧
    (∀ fuel startLine,
      composeBlock cwDemo defaultConfig fuel ⟨.paragraph, longToken, false⟩ startLine = none) := by
  have hne : longToken ≠ [] := by decide
  have hstrip : pyStrip longToken = longToken := by decide
  have hlast : ¬ (textWidth cwDemo longToken ≤ qSub defaultConfig.textAreaWidth 0) := by decide
  have hloop : ∀ fuel startLine isFirst,
      composeBlockLoop cwDemo defaultConfig fuel longToken isFirst startLine = none := by
    intro fuel
    induction fuel with
    | zero =>
      intro n f
      rw [composeBlockLoop.eq_def]
      simp [hne]
    | succ fuel ih =>
      intro n f
      have hrec := ih (n + 1) false
      rw [composeBlockLoop.eq_def]
      cases f with
      | true =>
        simp only [if_neg hne, if_true]
        rw [fillLine_longToken_zw1]
        simp [hstrip, hne, hrec]
      | false =>
        simp only [if_neg hne, Bool.false_eq_true, if_false, if_neg hlast]
        rw [fillLine_longToken_zw2]
        simp [hstrip, hne, hrec]
  refine ⟨fillLine_longToken_zw1, hloop, ?_⟩
  intro fuel startLine
  simp [composeBlock, hstrip, hloop fuel startLine]

/-! ## C3: the 20-page cap truncates silently -/

/-- **C3 counterexample**: a document of 261 one-character headings (13 fit per
27-line page) needs 21 pages; `compose_document` composes exactly 20 pages,
leaves one block unconsumed, and returns the truncated page list normally —
no error of any kind is raised. -/
theorem composeDocument_cap_silent_truncation :
    (composeDocLoop cwDemo defaultConfig 2 300 20 (hBlocks 261) 1).map
      (fun pr => (pr.1.length, pr.2.length)) = some (20, 1) ∧
    (composeDocument cwDemo defaultConfig 2 300 (hBlocks 261)).map List.length = some 20 := by
  constructor
  · decide
  · decide

/-- **C3 amended**: document composition enforces the fixed 20-page safety
bound — the returned page list never exceeds 20 pages — but exceeding the
bound is a silent truncation (the loop simply stops; see
`composeDocument_cap_silent_truncation`), not an error. -/
theorem composeDocument_pages_le_twenty (cw : Char → ℚ) (cfg : LayoutConfig)
    (blockFuel pageFuel : Nat) (blocks : List ContentBlock) :
    ((composeDocument cw cfg blockFuel pageFuel blocks).map List.length).getD 0 ≤ 20 := by
  have haux : ∀ iters queue pageNumber out, pageNumber ≤ 20 →
      composeDocLoop cw cfg blockFuel pageFuel iters queue pageNumber = some out →
      out.1.length ≤ 21 - pageNumber := by
    intro iters
    induction iters with
    | zero =>
      intro queue pageNumber out hpn h
      cases queue with
      | nil =>
        rw [composeDocLoop] at h
        cases h
        simp
      | cons q qs =>
        rw [composeDocLoop] at h
        cases hp : composePage cw cfg blockFuel pageFuel (q :: qs) pageNumber with
        | none => rw [hp] at h; exact Option.noConfusion h
        | some pr =>
          obtain ⟨page, rem⟩ := pr
          rw [hp] at h
          dsimp only at h
          by_cases hc : 20 < pageNumber + 1
          · rw [if_pos hc] at h
            cases h
            simp only [List.length_cons, List.length_nil]
            omega
          · rw [if_neg hc] at h
            exact Option.noConfusion h
    | succ iters ih =>
      intro queue pageNumber out hpn h
      cases queue with
      | nil =>
        rw [composeDocLoop] at h
        cases h
        simp
      | cons q qs =>
        rw [composeDocLoop] at h
        cases hp : composePage cw cfg blockFuel pageFuel (q :: qs) pageNumber with
        | none => rw [hp] at h; exact Option.noConfusion h
        | some pr =>
          obtain ⟨page, rem⟩ := pr
          rw [hp] at h
          dsimp only at h
          by_cases hc : 20 < pageNumber + 1
          · rw [if_pos hc] at h
            cases h
            simp only [List.length_cons, List.length_nil]
            omega
          · rw [if_neg hc] at h
            cases hr : composeDocLoop cw cfg blockFuel pageFuel iters rem (pageNumber + 1) with
            | none => rw [hr] at h; exact Option.noConfusion h
            | some out' =>
              obtain ⟨ps, r⟩ := out'
              rw [hr] at h
              dsimp only at h
              cases h
              have hrec := ih rem (pageNumber + 1) (ps, r) (by omega) hr
              simp only [List.length_cons] at hrec ⊢
              omega
  unfold composeDocument
  cases hout : composeDocLoop cw cfg blockFuel pageFuel 20 blocks 1 with
  | none => simp
  | some out =>
    have := haux 20 blocks 1 out (by omega) hout
    simp
    omega

/-! ## C8: orphan-punctuation fix-up -/

/-- Width instance for the orphan-punctuation witness: an oversized ideographic
full stop (690 px) forces the punctuation token to overflow the 698 px line
after a few normal 10 px glyphs. -/
def cwBig (c : Char) : ℚ := if c = '。' then 690 else 10

/-- `splitLastEligible l = none` means every character of `l` is a space or
punctuation. -/
theorem splitLastEligible_none {l : List Char} (h : splitLastEligible l = none) :
    ∀ c ∈ l, ¬ (isEligibleChar c = true) := by
  induction l with
  | nil => simp
  | cons c rest ih =>
    intro d hd
    rw [splitLastEligible] at h
    cases hr : splitLastEligible rest with
    | some pr => rw [hr] at h; obtain ⟨p, x, s⟩ := pr; exact Option.noConfusion h
    | none =>
      rw [hr] at h
      by_cases he : isEligibleChar c
      · rw [if_pos he] at h; exact Option.noConfusion h
      · rcases List.mem_cons.mp hd with rfl | hmem
        · exact he
        · exact ih hr d hmem

/-- Specification of the backwards scan of the orphan-punctuation fix-up:
a `some (p, x, s)` result decomposes the line as `p ++ x :: s` with `x`
eligible and everything after `x` ineligible — i.e. `x` is the last
non-space, non-punctuation character. -/
theorem splitLastEligible_spec :
    ∀ (l p : List Char) (x : Char) (s : List Char), splitLastEligible l = some (p, x, s) →
      l = p ++ x :: s ∧ isEligibleChar x = true ∧ ∀ c ∈ s, ¬ (isEligibleChar c = true) := by
  intro l
  induction l with
  | nil => intro p x s h; rw [splitLastEligible] at h; exact Option.noConfusion h
  | cons c rest ih =>
    intro p x s h
    rw [splitLastEligible] at h
    cases hr : splitLastEligible rest with
    | some pr =>
      obtain ⟨p2, x2, s2⟩ := pr
      have hih := ih p2 x2 s2 hr
      rw [hr] at h
      dsimp only at h
      cases h
      exact ⟨by simp [hih.1], hih.2.1, hih.2.2⟩
    | none =>
      rw [hr] at h
      by_cases he : isEligibleChar c
      · rw [if_pos he] at h
        cases h
        exact ⟨rfl, he, splitLastEligible_none hr⟩
      · rw [if_neg he] at h
        exact Option.noConfusion h

/-- **C8 counterexample**: a paragraph of forty ideographic full stops.  The
first line accepts 31 of them; the remainder begins with punctuation but the
accepted line contains no non-space, non-punctuation character, so nothing is
relocated and the second produced line — also in the final composed document —
begins with the punctuation mark `'。'` carried over from the break. -/
theorem fillLine_orphan_punct_counterexample :
    (composeBlock cwDemo defaultConfig 50 ⟨.paragraph, List.replicate 40 '。', false⟩ 1).map
      (fun pr => pr.1.map LayoutLine.text)
      = some [List.replicate 31 '。', List.replicate 9 '。'] ∧
    (composeDocument cwDemo defaultConfig 50 50 [⟨.paragraph, List.replicate 40 '。', false⟩]).map
      (fun ps => ps.map (fun p => p.lines.map LayoutLine.text))
      = some [[List.replicate 31 '。', List.replicate 9 '。']] ∧
    '。' ∈ punctChars := by
  refine ⟨by decide, by decide, by decide⟩

/-- **C8 amended**: when, after greedy filling, the (pre-`lstrip`) remainder
begins with a punctuation character *and* the accepted line contains at least
one non-space, non-punctuation character, then the last such character `x` is
removed from the line, prepended to the remainder, and `actual_width` is
decreased by `x`'s width (before adding the indent back).  Without an eligible
character nothing is relocated (see the counterexample). -/
theorem fillLine_orphan_punct_fixup (cw : Char → ℚ) (cfg : LayoutConfig)
    (text : List Char) (css : CssClass)
    (hne : ¬ pyStrip text = [])
    (line0 : List Char) (width0 : ℚ) (rest : List Tok)
    (hfw : fillWords cw (qSub cfg.textAreaWidth (lineIndent cfg css)) (tokenize text) [] 0
            = (line0, width0, rest))
    (r0 : Char) (rs : List Char) (hrem : concatToks rest = r0 :: rs)
    (hp : r0 ∈ punctChars)
    (p : List Char) (x : Char) (s : List Char)
    (hsplit : splitLastEligible line0 = some (p, x, s)) :
    fillLineHandwritten cw cfg text css =
      (p ++ s, pyLStrip (x :: r0 :: rs),
       qAdd (qSub width0 (cw x)) (lineIndent cfg css),
       if cfg.textAreaWidth > 0 then
         qDiv (qAdd (qSub width0 (cw x)) (lineIndent cfg css)) cfg.textAreaWidth
       else 0) ∧
    line0 = p ++ x :: s ∧ isEligibleChar x = true ∧
    (∀ c ∈ s, ¬ (isEligibleChar c = true)) := by
  obtain ⟨hdec, helig, hafter⟩ := splitLastEligible_spec line0 p x s hsplit
  refine ⟨?_, hdec, helig, hafter⟩
  rw [fillLineHandwritten]
  rw [if_neg hne, hfw]
  cases rest with
  | nil => exact absurd hrem (by simp [concatToks])
  | cons t ts =>
    dsimp only
    rw [hrem]
    dsimp only
    rw [if_pos hp, hsplit]

/-- Witness for `fillLine_orphan_punct_fixup`: on `"ab，。xy"` with an
oversized `'。'`, the accepted line `"ab，"` ends before `'。'`; the last
eligible character `'b'` is relocated, giving line `"a，"` and remainder
`"b。xy"`. -/
theorem fillLine_orphan_punct_fixup_witness :
    fillLineHandwritten cwBig defaultConfig "ab，。xy".data .zw2 =
      ("a，".data, pyLStrip ('b' :: '。' :: "xy".data),
       qAdd (qSub 30 (cwBig 'b')) (lineIndent defaultConfig .zw2),
       if defaultConfig.textAreaWidth > 0 then
         qDiv (qAdd (qSub 30 (cwBig 'b')) (lineIndent defaultConfig .zw2)) defaultConfig.textAreaWidth
       else 0) ∧
    "ab，".data = "a".data ++ 'b' :: "，".data ∧ isEligibleChar 'b' = true ∧
    (∀ c ∈ "，".data, ¬ (isEligibleChar c = true)) :=
  fillLine_orphan_punct_fixup cwBig defaultConfig "ab，。xy".data .zw2 (by decide)
    "ab，".data 30 [⟨['。'], .punct⟩, ⟨"xy".data, .word⟩] (by decide)
    '。' "xy".data (by decide) (by decide)
    "a".data 'b' "，".data (by decide)

/-! ## C5: heading blocks need two contiguous slots and never split -/

/-- **C5**: a heading block (`h1`/`h2`) composes to exactly one `TitleLine`
consuming 2 line slots (at every fuel); at the head of the page queue it is
deferred — zero lines emitted, the block left in place to start the next
page — when fewer than 2 slots remain (`current + 1 > maxL`), and otherwise
it is emitted as that single title line, the line counter advances by 2, and
the block is popped. -/
theorem composePage_heading_atomic (cw : Char → ℚ) (cfg : LayoutConfig)
    (maxL blockFuel fuel : Nat) (block : ContentBlock) (rest : List ContentBlock)
    (lines : List LayoutLine) (current : Nat)
    (hty : block.type = .h1 ∨ block.type = .h2) :
    (∀ f n, composeBlock cw cfg f block n = some ([titleLayoutLine cw cfg block n], 2)) ∧
    (current + 1 > maxL →
      composePageLoop cw cfg maxL blockFuel (fuel + 1) (block :: rest) lines current =
        some (lines, block :: rest)) ∧
    (¬ current + 1 > maxL →
      composePageLoop cw cfg maxL blockFuel (fuel + 1) (block :: rest) lines current =
        composePageLoop cw cfg maxL blockFuel fuel rest
          (lines ++ [titleLayoutLine cw cfg block current]) (current + 2)) := by
  have hcb : ∀ f n, composeBlock cw cfg f block n = some ([titleLayoutLine cw cfg block n], 2) := by
    intro f n
    rcases hty with h | h <;> rw [composeBlock, h]
  refine ⟨hcb, ?_, ?_⟩
  · intro hfull
    rw [composePageLoop.eq_def]
    dsimp only
    rw [if_pos hty, if_pos hfull]
  · intro hfits
    rw [composePageLoop.eq_def]
    dsimp only
    rw [if_pos hty, if_neg hfits, hcb blockFuel current]

/-- Witness for `composePage_heading_atomic` on a concrete heading: deferred
with 1 slot left on a 27-line page, emitted with 2 slots left. -/
theorem composePage_heading_atomic_witness :
    composeBlock cwDemo defaultConfig 0 ⟨.h1, "T".data, false⟩ 5 =
      some ([titleLayoutLine cwDemo defaultConfig ⟨.h1, "T".data, false⟩ 5], 2) ∧
    composePageLoop cwDemo defaultConfig 27 1 4 [⟨.h1, "T".data, false⟩] [] 27 =
      some ([], [⟨.h1, "T".data, false⟩]) ∧
    composePageLoop cwDemo defaultConfig 27 1 6 [⟨.h1, "T".data, false⟩] [] 26 =
      composePageLoop cwDemo defaultConfig 27 1 5 []
        ([] ++ [titleLayoutLine cwDemo defaultConfig ⟨.h1, "T".data, false⟩ 26]) 28 := by
  obtain ⟨h1, _, _⟩ :=
    composePage_heading_atomic cwDemo defaultConfig 27 1 3 ⟨.h1, "T".data, false⟩ [] [] 27
      (Or.inl rfl)
  obtain ⟨_, h2, _⟩ :=
    composePage_heading_atomic cwDemo defaultConfig 27 1 3 ⟨.h1, "T".data, false⟩ [] [] 27
      (Or.inl rfl)
  obtain ⟨_, _, h3⟩ :=
    composePage_heading_atomic cwDemo defaultConfig 27 1 5 ⟨.h1, "T".data, false⟩ [] [] 26
      (Or.inl rfl)
  exact ⟨h1 0 5, h2 (by omega), h3 (by omega)⟩

/-! ## C6: paragraph splitting and continuation blocks -/

/-- `takeFit` accounting: the consumed counter only grows and counts the
fitted lines; if the inner `for` loop of `compose_page` stopped before
exhausting the block's lines, the failed check of the source
(`current + consumed ≤ max_lines`) means the page was full at that point;
and as long as anything was accepted, the last accepted line still satisfied
the check. -/
theorem takeFit_spec (maxL current : Nat) :
    ∀ (bls : List LayoutLine) (k : Nat) (fit : List LayoutLine) (consumed : Nat),
      takeFit maxL current bls k = (fit, consumed) →
      k ≤ consumed ∧ fit.length + k = consumed ∧
      (consumed - k < bls.length → current + consumed > maxL) ∧
      (k < consumed → current + consumed ≤ maxL + 1) := by
  intro bls
  induction bls with
  | nil =>
    intro k fit consumed h
    rw [takeFit] at h
    cases h
    simp
  | cons l ls ih =>
    intro k fit consumed h
    rw [takeFit] at h
    by_cases hk : current + k ≤ maxL
    · rw [if_pos hk] at h
      cases hr : takeFit maxL current ls (k + 1) with
      | mk f2 c2 =>
        have hih := ih (k + 1) f2 c2 hr
        rw [hr] at h
        dsimp only at h
        injection h with hf hc
        subst hf
        subst hc
        obtain ⟨h1, h2, h3, h4⟩ := hih
        refine ⟨by omega, by simp; omega, ?_, ?_⟩
        · intro hlt
          exact h3 (by simp at hlt ⊢; omega)
        · intro _
          by_cases hk1 : k + 1 < c2
          · exact h4 hk1
          · have hc2 : c2 = k + 1 := by omega
            rw [hc2]
            omega
    · rw [if_neg hk] at h
      cases h
      exact ⟨le_refl _, by simp, fun _ => by omega, fun hlt => by omega⟩

/-- Lines produced by the paragraph loop with `is_first_line = False` carry
only the unindented styles `zw2`/`zw3`. -/
theorem composeBlockLoop_not_first_css (cw : Char → ℚ) (cfg : LayoutConfig) :
    ∀ (fuel : Nat) (rem : List Char) (n : Nat) (ls : List LayoutLine),
      composeBlockLoop cw cfg fuel rem false n = some ls →
      ∀ l ∈ ls, l.cssClass = .zw2 ∨ l.cssClass = .zw3 := by
  intro fuel
  induction fuel with
  | zero =>
    intro rem n ls h
    rw [composeBlockLoop.eq_def] at h
    dsimp only at h
    by_cases hr : rem = []
    · rw [if_pos hr] at h; cases h; simp
    · rw [if_neg hr] at h; exact Option.noConfusion h
  | succ fuel ih =>
    intro rem n ls h
    rw [composeBlockLoop.eq_def] at h
    dsimp only at h
    by_cases hr : rem = []
    · rw [if_pos hr] at h; cases h; simp
    · rw [if_neg hr] at h
      simp only [Bool.false_eq_true, if_false] at h
      set lcss := (if textWidth cw rem ≤ qSub cfg.textAreaWidth 0 then CssClass.zw3 else CssClass.zw2)
        with hlcss
      set r := fillLineHandwritten cw cfg rem lcss with hrdef
      by_cases h1 : r.1 = [] ∧ r.2.1 = []
      · rw [if_pos h1] at h; cases h; simp
      · rw [if_neg h1] at h
        by_cases h2 : pyStrip r.1 = [] ∧ pyStrip r.2.1 = []
        · rw [if_pos h2] at h; cases h; simp
        · rw [if_neg h2] at h
          cases hrec : composeBlockLoop cw cfg fuel r.2.1 false (n + 1) with
          | none => rw [hrec] at h; exact Option.noConfusion h
          | some restLines =>
            rw [hrec] at h
            dsimp only at h
            cases h
            intro l hl
            rcases List.mem_cons.mp hl with rfl | hmem
            · dsimp only
              by_cases hw : textWidth cw rem ≤ qSub cfg.textAreaWidth 0
              · rw [hlcss, if_pos hw]; simp
              · rw [hlcss, if_neg hw]; simp
            · exact ih r.2.1 (n + 1) restLines hrec l hmem

/-- `fixLastClass` keeps every line's style in `{zw2, zw3}` if it was there. -/
theorem fixLastClass_css :
    ∀ (ls : List LayoutLine), (∀ l ∈ ls, l.cssClass = .zw2 ∨ l.cssClass = .zw3) →
      ∀ l ∈ fixLastClass ls, l.cssClass = .zw2 ∨ l.cssClass = .zw3 := by
  intro ls
  induction ls with
  | nil => intro _ l hl; rw [fixLastClass] at hl; simp at hl
  | cons a tail ih =>
    intro hall x hx
    cases tail with
    | nil =>
      rw [fixLastClass] at hx
      by_cases hc : a.cssClass = .bt1 ∨ a.cssClass = .bt2 ∨ a.cssClass = .zw3
      · rw [if_pos hc] at hx
        simp at hx
        subst hx
        exact hall _ (by simp)
      · rw [if_neg hc] at hx
        simp at hx
        subst hx
        simp
    | cons b tail2 =>
      rw [fixLastClass] at hx
      rcases List.mem_cons.mp hx with rfl | hmem
      · exact hall x (by simp)
      · exact ih (fun y hy => hall y (List.mem_cons_of_mem _ hy)) x hmem

/-- **C6**: with a paragraph block at the head of the queue and room on the
page, if the inner fit loop stops with lines left over, the page closes with
the fitted lines and the queue's head is *replaced* by a fresh continuation
block `{paragraph, concatenation of the leftover lines' texts, isContinuation
= true}` (the index does not advance past it); if all lines fit, the block is
popped instead.  A continuation paragraph is composed entirely in the
unindented styles `zw2`/`zw3`, and `fill_line_handwritten` applies indent `0`
to every style but `zw1`. -/
theorem composePage_paragraph_continuation (cw : Char → ℚ) (cfg : LayoutConfig)
    (maxL blockFuel fuel : Nat) (block : ContentBlock) (rest : List ContentBlock)
    (lines : List LayoutLine) (current : Nat)
    (bls fit : List LayoutLine) (used consumed : Nat)
    (hty : block.type = .paragraph)
    (hroom : ¬((maxL : Int) - current + 1 ≤ 0))
    (hcb : composeBlock cw cfg blockFuel block current = some (bls, used))
    (hfit : takeFit maxL current bls 0 = (fit, consumed))
    (hfitne : ¬ fit = []) :
    (consumed < bls.length →
      composePageLoop cw cfg maxL blockFuel (fuel + 1) (block :: rest) lines current =
        some (lines ++ fit,
          ⟨.paragraph, ((bls.drop consumed).map LayoutLine.text).flatten, true⟩ :: rest)) ∧
    (¬ consumed < bls.length →
      composePageLoop cw cfg maxL blockFuel (fuel + 1) (block :: rest) lines current =
        (if current + consumed ≥ maxL then some (lines ++ fit, rest)
         else composePageLoop cw cfg maxL blockFuel fuel rest (lines ++ fit) (current + consumed))) ∧
    (∀ (b : ContentBlock) f n ls u, b.type = .paragraph → b.isContinuation = true →
      composeBlock cw cfg f b n = some (ls, u) →
      ∀ l ∈ ls, l.cssClass = .zw2 ∨ l.cssClass = .zw3) ∧
    (∀ css, ¬ css = CssClass.zw1 → lineIndent cfg css = 0) := by
  have hnh : ¬ (block.type = .h1 ∨ block.type = .h2) := by rw [hty]; rintro (h | h) <;> cases h
  refine ⟨?_, ?_, ?_, ?_⟩
  · intro hlt
    have hgt : current + consumed > maxL :=
      (takeFit_spec maxL current bls 0 fit consumed hfit).2.2.1 (by simpa using hlt)
    rw [composePageLoop.eq_def]
    dsimp only
    rw [if_neg hnh, if_neg hroom, hcb]
    dsimp only
    rw [hfit]
    dsimp only
    rw [if_pos hfitne, if_pos hlt, if_pos (by omega : current + consumed ≥ maxL)]
  · intro hge
    rw [composePageLoop.eq_def]
    dsimp only
    rw [if_neg hnh, if_neg hroom, hcb]
    dsimp only
    rw [hfit]
    dsimp only
    rw [if_pos hfitne, if_neg hge]
  · intro b f n ls u hbty hbcont hbcb
    cases hb : b.type
    case h1 => rw [hb] at hbty; cases hbty
    case h2 => rw [hb] at hbty; cases hbty
    case paragraph =>
      rw [composeBlock, hb] at hbcb
      cases hloop : composeBlockLoop cw cfg f (pyStrip b.text) (!b.isContinuation) n with
      | none => rw [hloop] at hbcb; exact Option.noConfusion hbcb
      | some ls0 =>
        rw [hloop] at hbcb
        dsimp only at hbcb
        cases hbcb
        rw [hbcont] at hloop
        exact fixLastClass_css ls0
          (composeBlockLoop_not_first_css cw cfg f (pyStrip b.text) n ls0 hloop)
  · intro css hcss
    rw [lineIndent, if_neg hcss]

/-- A small configuration for the continuation witness: 30 px lines, 5 px
indent, 2-line pages. -/
def cfgSmall : LayoutConfig := ⟨30, 5, 2, 2⟩

/-- A seven-ideograph paragraph: needs 7 lines of `cfgSmall`. -/
def paraSeven : ContentBlock := ⟨.paragraph, "天天天天天天天".data, false⟩

/-- The lines `compose_block` produces for `paraSeven` under `cfgSmall`. -/
def paraSevenLines : List LayoutLine :=
  [⟨['天'], .zw1, 26, mkRat 13 15, 1, ['1']⟩,
   ⟨['天'], .zw2, 21, mkRat 7 10, 2, ['2']⟩,
   ⟨['天'], .zw2, 21, mkRat 7 10, 3, ['3']⟩,
   ⟨['天'], .zw2, 21, mkRat 7 10, 4, ['4']⟩,
   ⟨['天'], .zw2, 21, mkRat 7 10, 5, ['5']⟩,
   ⟨['天'], .zw2, 21, mkRat 7 10, 6, ['6']⟩,
   ⟨['天'], .zw3, 21, mkRat 7 10, 7, ['7']⟩]

/-- Witness for `composePage_paragraph_continuation`: a 7-line paragraph on a
2-line page emits the 2 fitting lines and replaces itself with a continuation
block carrying the 5 leftover ideographs. -/
theorem composePage_paragraph_continuation_witness :
    composePageLoop cwDemo cfgSmall 2 50 50 [paraSeven] [] 1 =
      some ([] ++ paraSevenLines.take 2,
        ⟨.paragraph, ((paraSevenLines.drop 2).map LayoutLine.text).flatten, true⟩ :: []) :=
  (composePage_paragraph_continuation cwDemo cfgSmall 2 50 49 paraSeven [] [] 1
    paraSevenLines (paraSevenLines.take 2) 7 2 rfl (by decide) (by decide) (by decide)
    (by decide)).1 (by decide)

/-! ## C4: page capacity bound -/

/-- Invariant of the `compose_page` loop: if the accumulated lines occupy
fewer slots than `current` (slot accounting: headings add 2 to `current` but
only 1 line) and `current` has not passed `maxL + 1`, then the page's final
line list has at most `maxL` entries. -/
theorem composePageLoop_length_bound (cw : Char → ℚ) (cfg : LayoutConfig)
    (maxL blockFuel : Nat) :
    ∀ (fuel : Nat) (queue : List ContentBlock) (lines : List LayoutLine) (current : Nat)
      (out : List LayoutLine × List ContentBlock),
      composePageLoop cw cfg maxL blockFuel fuel queue lines current = some out →
      lines.length + 1 ≤ current → current ≤ maxL + 1 →
      out.1.length ≤ maxL := by
  intro fuel
  induction fuel with
  | zero =>
    intro queue lines current out h hlen hcur
    cases queue with
    | nil =>
      rw [composePageLoop.eq_def] at h
      dsimp only at h
      cases h
      dsimp only
      omega
    | cons q qs =>
      rw [composePageLoop.eq_def] at h
      dsimp only at h
      exact Option.noConfusion h
  | succ fuel ih =>
    intro queue lines current out h hlen hcur
    cases queue with
    | nil =>
      rw [composePageLoop.eq_def] at h
      dsimp only at h
      cases h
      dsimp only
      omega
    | cons q qs =>
      rw [composePageLoop.eq_def] at h
      dsimp only at h
      by_cases hty : q.type = .h1 ∨ q.type = .h2
      · rw [if_pos hty] at h
        by_cases hfull : current + 1 > maxL
        · rw [if_pos hfull] at h
          cases h
          dsimp only
          omega
        · rw [if_neg hfull] at h
          have hcb : composeBlock cw cfg blockFuel q current =
              some ([titleLayoutLine cw cfg q current], 2) := by
            rcases hty with h2 | h2 <;> rw [composeBlock, h2]
          rw [hcb] at h
          dsimp only at h
          exact ih qs (lines ++ [titleLayoutLine cw cfg q current]) (current + 2) out h
            (by simp; omega) (by omega)
      · rw [if_neg hty] at h
        by_cases hroom : (maxL : Int) - current + 1 ≤ 0
        · rw [if_pos hroom] at h
          cases h
          dsimp only
          omega
        · rw [if_neg hroom] at h
          cases hcb : composeBlock cw cfg blockFuel q current with
          | none => rw [hcb] at h; exact Option.noConfusion h
          | some br =>
            obtain ⟨bls, used⟩ := br
            rw [hcb] at h
            dsimp only at h
            cases hfit : takeFit maxL current bls 0 with
            | mk fit consumed =>
              rw [hfit] at h
              dsimp only at h
              obtain ⟨hk0, hlenfit, hstop, hupper⟩ :=
                takeFit_spec maxL current bls 0 fit consumed hfit
              by_cases hfne : fit ≠ []
              · rw [if_pos hfne] at h
                have hcons1 : 1 ≤ consumed := by
                  cases fit with
                  | nil => exact absurd rfl hfne
                  | cons a t => simp at hlenfit; omega
                have hup : current + consumed ≤ maxL + 1 := hupper (by omega)
                by_cases hpart : consumed < bls.length
                · rw [if_pos hpart] at h
                  by_cases hfullp : current + consumed ≥ maxL
                  · rw [if_pos hfullp] at h
                    cases h
                    dsimp only
                    simp only [List.length_append]
                    omega
                  · rw [if_neg hfullp] at h
                    exact ih _ (lines ++ fit) (current + consumed) out h
                      (by simp only [List.length_append]; omega) (by omega)
                · rw [if_neg hpart] at h
                  by_cases hfullp : current + consumed ≥ maxL
                  · rw [if_pos hfullp] at h
                    cases h
                    dsimp only
                    simp only [List.length_append]
                    omega
                  · rw [if_neg hfullp] at h
                    exact ih _ (lines ++ fit) (current + consumed) out h
                      (by simp only [List.length_append]; omega) (by omega)
              · rw [if_neg hfne] at h
                by_cases hfull2 : current ≥ maxL
                · rw [if_pos hfull2] at h
                  cases h
                  dsimp only
                  omega
                · rw [if_neg hfull2] at h
                  exact ih (q :: qs) lines current out h hlen hcur

/-- `compose_page` records the requested page number and respects its
capacity. -/
theorem composePage_spec (cw : Char → ℚ) (cfg : LayoutConfig)
    (blockFuel pageFuel : Nat) (queue : List ContentBlock) (n : Nat)
    (page : Page) (rem : List ContentBlock)
    (h : composePage cw cfg blockFuel pageFuel queue n = some (page, rem)) :
    page.pageNumber = n ∧ page.lineCount ≤ pageCapacity cfg n := by
  unfold composePage at h
  dsimp only at h
  cases hl : composePageLoop cw cfg (pageCapacity cfg n) blockFuel pageFuel queue [] 1 with
  | none => rw [hl] at h; exact Option.noConfusion h
  | some out =>
    obtain ⟨ls, rm⟩ := out
    have hbound := composePageLoop_length_bound cw cfg (pageCapacity cfg n) blockFuel pageFuel
      queue [] 1 (ls, rm) hl (by simp) (by omega)
    rw [hl] at h
    dsimp only at h
    cases h
    exact ⟨rfl, by simpa using hbound⟩

/-- **C4**: every page produced by document composition has `lineCount` at
most its capacity — the first-page budget for page 1, the normal-page budget
for all later pages (`pageCapacity`). -/
theorem composeDocument_capacity_bound (cw : Char → ℚ) (cfg : LayoutConfig)
    (blockFuel pageFuel : Nat) (blocks : List ContentBlock) (pages : List Page)
    (h : composeDocument cw cfg blockFuel pageFuel blocks = some pages) :
    ∀ p ∈ pages, p.lineCount ≤ pageCapacity cfg p.pageNumber := by
  have haux : ∀ iters queue pageNumber out,
      composeDocLoop cw cfg blockFuel pageFuel iters queue pageNumber = some out →
      ∀ p ∈ out.1, p.lineCount ≤ pageCapacity cfg p.pageNumber := by
    intro iters
    induction iters with
    | zero =>
      intro queue pageNumber out h2
      cases queue with
      | nil => rw [composeDocLoop] at h2; cases h2; simp
      | cons q qs =>
        rw [composeDocLoop] at h2
        cases hp : composePage cw cfg blockFuel pageFuel (q :: qs) pageNumber with
        | none => rw [hp] at h2; exact Option.noConfusion h2
        | some pr =>
          obtain ⟨page, rem⟩ := pr
          have hps := composePage_spec cw cfg blockFuel pageFuel (q :: qs) pageNumber page rem hp
          rw [hp] at h2
          dsimp only at h2
          by_cases hc : 20 < pageNumber + 1
          · rw [if_pos hc] at h2
            cases h2
            intro p hp2
            simp at hp2
            subst hp2
            rw [hps.1]
            exact hps.2
          · rw [if_neg hc] at h2
            exact Option.noConfusion h2
    | succ iters ih =>
      intro queue pageNumber out h2
      cases queue with
      | nil => rw [composeDocLoop] at h2; cases h2; simp
      | cons q qs =>
        rw [composeDocLoop] at h2
        cases hp : composePage cw cfg blockFuel pageFuel (q :: qs) pageNumber with
        | none => rw [hp] at h2; exact Option.noConfusion h2
        | some pr =>
          obtain ⟨page, rem⟩ := pr
          have hps := composePage_spec cw cfg blockFuel pageFuel (q :: qs) pageNumber page rem hp
          rw [hp] at h2
          dsimp only at h2
          by_cases hc : 20 < pageNumber + 1
          · rw [if_pos hc] at h2
            cases h2
            intro p hp2
            simp at hp2
            subst hp2
            rw [hps.1]
            exact hps.2
          · rw [if_neg hc] at h2
            cases hr : composeDocLoop cw cfg blockFuel pageFuel iters rem (pageNumber + 1) with
            | none => rw [hr] at h2; exact Option.noConfusion h2
            | some out2 =>
              obtain ⟨ps, r⟩ := out2
              rw [hr] at h2
              dsimp only at h2
              cases h2
              intro p hp2
              rcases List.mem_cons.mp hp2 with rfl | hmem
              · rw [hps.1]
                exact hps.2
              · exact ih rem (pageNumber + 1) (ps, r) hr p hmem
  unfold composeDocument at h
  cases hl : composeDocLoop cw cfg blockFuel pageFuel 20 blocks 1 with
  | none => rw [hl] at h; exact Option.noConfusion h
  | some out =>
    rw [hl] at h
    simp only [Option.map_some', Option.some_inj] at h
    subst h
    exact haux 20 blocks 1 out hl

/-- Witness for `composeDocument_capacity_bound` on a one-heading document. -/
theorem composeDocument_capacity_bound_witness :
    composeDocument cwDemo defaultConfig 1 3 [⟨.h1, "T".data, false⟩] =
      some [⟨[⟨"T".data, .bt1, 10, mkRat 10 698, 1, "1+2".data⟩], 1, 1, 26⟩] ∧
    ∀ p ∈ [(⟨[⟨"T".data, .bt1, 10, mkRat 10 698, 1, "1+2".data⟩], 1, 1, 26⟩ : Page)],
      p.lineCount ≤ pageCapacity defaultConfig p.pageNumber :=
  ⟨by decide,
   composeDocument_capacity_bound cwDemo defaultConfig 1 3 [⟨.h1, "T".data, false⟩]
     [⟨[⟨"T".data, .bt1, 10, mkRat 10 698, 1, "1+2".data⟩], 1, 1, 26⟩] (by decide)⟩

/-! ## C7: hyphenation-point selection -/

/-- An entry of the prefix list is usable for the word `wl` of length `wlen`
(the source's `word_lower.startswith(prefix) and len(prefix) >= 2 and
len(word) - len(prefix) >= 2`). -/
def eligPrefix (wl : List Char) (wlen : Nat) (p : List Char) : Prop :=
  p.isPrefixOf wl = true ∧ 2 ≤ p.length ∧ p.length + 2 ≤ wlen

/-- An entry of the suffix list is usable for the word `wl` of length `wlen`. -/
def eligSuffix (wl : List Char) (wlen : Nat) (s : List Char) : Prop :=
  s.isSuffixOf wl = true ∧ 2 ≤ s.length ∧ s.length + 2 ≤ wlen

/-- The prefix scan yields a usable entry of its list, of that length. -/
theorem findPrefixSplit_some (wl : List Char) (wlen : Nat) :
    ∀ (ps : List (List Char)) (n : Nat), findPrefixSplit wl wlen ps = some n →
      ∃ p ∈ ps, eligPrefix wl wlen p ∧ p.length = n := by
  intro ps
  induction ps with
  | nil => intro n h; rw [findPrefixSplit] at h; exact Option.noConfusion h
  | cons p ps ih =>
    intro n h
    rw [findPrefixSplit] at h
    by_cases hp : p.isPrefixOf wl = true ∧ 2 ≤ p.length ∧ p.length + 2 ≤ wlen
    · rw [if_pos hp] at h
      cases h
      exact ⟨p, by simp, hp, rfl⟩
    · rw [if_neg hp] at h
      obtain ⟨q, hq, he, hl⟩ := ih n h
      exact ⟨q, List.mem_cons_of_mem _ hq, he, hl⟩

/-- The prefix scan fails only when no entry of its list is usable. -/
theorem findPrefixSplit_none (wl : List Char) (wlen : Nat) :
    ∀ (ps : List (List Char)), findPrefixSplit wl wlen ps = none →
      ∀ p ∈ ps, ¬ eligPrefix wl wlen p := by
  intro ps
  induction ps with
  | nil => simp
  | cons p ps ih =>
    intro h q hq
    rw [findPrefixSplit] at h
    by_cases hp : p.isPrefixOf wl = true ∧ 2 ≤ p.length ∧ p.length + 2 ≤ wlen
    · rw [if_pos hp] at h; exact Option.noConfusion h
    · rw [if_neg hp] at h
      rcases List.mem_cons.mp hq with rfl | hmem
      · exact hp
      · exact ih h q hmem

/-- On a list sorted by non-increasing length, the prefix scan returns a
longest usable entry. -/
theorem findPrefixSplit_max (wl : List Char) (wlen : Nat) :
    ∀ (ps : List (List Char)),
      List.Pairwise (fun a b : List Char => b.length ≤ a.length) ps →
      ∀ n, findPrefixSplit wl wlen ps = some n →
        ∀ q ∈ ps, eligPrefix wl wlen q → q.length ≤ n := by
  intro ps
  induction ps with
  | nil => intro _ n h; rw [findPrefixSplit] at h; exact Option.noConfusion h
  | cons p ps ih =>
    intro hsorted n h q hq he
    rw [findPrefixSplit] at h
    by_cases hp : p.isPrefixOf wl = true ∧ 2 ≤ p.length ∧ p.length + 2 ≤ wlen
    · rw [if_pos hp] at h
      cases h
      rcases List.mem_cons.mp hq with rfl | hmem
      · exact le_refl _
      · exact (List.pairwise_cons.mp hsorted).1 q hmem
    · rw [if_neg hp] at h
      rcases List.mem_cons.mp hq with rfl | hmem
      · exact absurd he hp
      · exact ih (List.pairwise_cons.mp hsorted).2 n h q hmem he

/-- The suffix scan yields a usable entry of its list, with split point
`wlen - len(suffix)`. -/
theorem findSuffixSplit_some (wl : List Char) (wlen : Nat) :
    ∀ (ss : List (List Char)) (n : Nat), findSuffixSplit wl wlen ss = some n →
      ∃ s ∈ ss, eligSuffix wl wlen s ∧ wlen - s.length = n := by
  intro ss
  induction ss with
  | nil => intro n h; rw [findSuffixSplit] at h; exact Option.noConfusion h
  | cons s ss ih =>
    intro n h
    rw [findSuffixSplit] at h
    by_cases hs : s.isSuffixOf wl = true ∧ 2 ≤ s.length ∧ s.length + 2 ≤ wlen
    · rw [if_pos hs] at h
      cases h
      exact ⟨s, by simp, hs, rfl⟩
    · rw [if_neg hs] at h
      obtain ⟨q, hq, he, hl⟩ := ih n h
      exact ⟨q, List.mem_cons_of_mem _ hq, he, hl⟩

/-- The suffix scan fails only when no entry of its list is usable. -/
theorem findSuffixSplit_none (wl : List Char) (wlen : Nat) :
    ∀ (ss : List (List Char)), findSuffixSplit wl wlen ss = none →
      ∀ s ∈ ss, ¬ eligSuffix wl wlen s := by
  intro ss
  induction ss with
  | nil => simp
  | cons s ss ih =>
    intro h q hq
    rw [findSuffixSplit] at h
    by_cases hs : s.isSuffixOf wl = true ∧ 2 ≤ s.length ∧ s.length + 2 ≤ wlen
    · rw [if_pos hs] at h; exact Option.noConfusion h
    · rw [if_neg hs] at h
      rcases List.mem_cons.mp hq with rfl | hmem
      · exact hs
      · exact ih h q hmem

/-- On a list sorted by non-increasing length, the suffix scan returns the
split of a longest usable suffix (hence the smallest split point). -/
theorem findSuffixSplit_max (wl : List Char) (wlen : Nat) :
    ∀ (ss : List (List Char)),
      List.Pairwise (fun a b : List Char => b.length ≤ a.length) ss →
      ∀ n, findSuffixSplit wl wlen ss = some n →
        ∀ q ∈ ss, eligSuffix wl wlen q → n ≤ wlen - q.length := by
  intro ss
  induction ss with
  | nil => intro _ n h; rw [findSuffixSplit] at h; exact Option.noConfusion h
  | cons s ss ih =>
    intro hsorted n h q hq he
    rw [findSuffixSplit] at h
    by_cases hs : s.isSuffixOf wl = true ∧ 2 ≤ s.length ∧ s.length + 2 ≤ wlen
    · rw [if_pos hs] at h
      cases h
      rcases List.mem_cons.mp hq with rfl | hmem
      · exact le_refl _
      · have := (List.pairwise_cons.mp hsorted).1 q hmem
        omega
    · rw [if_neg hs] at h
      rcases List.mem_cons.mp hq with rfl | hmem
      · exact absurd he hs
      · exact ih (List.pairwise_cons.mp hsorted).2 n h q hmem he

/-- `sortedPrefixes` is a permutation of the source's `common_prefixes`. -/
theorem sortedPrefixes_perm : sortedPrefixes.Perm commonPrefixes :=
  Quotient.exact (by decide :
    (Multiset.ofList sortedPrefixes) = Multiset.ofList commonPrefixes)

/-- `sortedSuffixes` is a permutation of the source's `common_suffixes`. -/
theorem sortedSuffixes_perm : sortedSuffixes.Perm commonSuffixes :=
  Quotient.exact (by decide :
    (Multiset.ofList sortedSuffixes) = Multiset.ofList commonSuffixes)

/-- `sortedPrefixes` is sorted by non-increasing length (as Python's
`sorted(key=len, reverse=True)` guarantees). -/
theorem sortedPrefixes_sorted :
    List.Pairwise (fun a b : List Char => b.length ≤ a.length) sortedPrefixes := by decide

/-- `sortedSuffixes` is sorted by non-increasing length. -/
theorem sortedSuffixes_sorted :
    List.Pairwise (fun a b : List Char => b.length ≤ a.length) sortedSuffixes := by decide

/-- **C7**: the hyphenation point of an overflowing long word is chosen by
first consulting the curated `special_words` table (a hit is used exactly
when it leaves 2 characters on each side), else the longest usable entry of
the prefix list, else the longest usable entry of the suffix list, else the
midpoint — and for every word of more than 6 characters the chosen point
leaves at least 2 characters on each side.  `try_hyphenate_word` refuses
words of at most 6 characters and the protected proper-noun/acronym set, and
otherwise returns `firstPart ++ '-'` (with the rest as remainder) exactly
when that fits the remaining width.  In the fill loop, a successful
hyphenation appends the fitted part to the line and pushes the rest back as
the head of the remainder; a failed one ends the line without any part of
the word. -/
theorem hyphenation_spec (cw : Char → ℚ) (word : List Char) (avail : ℚ) :
    (7 ≤ word.length →
      2 ≤ findBestHyphenPosition word ∧ findBestHyphenPosition word + 2 ≤ word.length) ∧
    (∀ e, specialWords.find? (fun en => en.1 = word.map pyLower) = some e →
      ((2 ≤ (e.2 : Int) ∧ (e.2 : Int) ≤ (word.length : Int) - 2 →
          findBestHyphenPosition word = e.2) ∧
       (¬ (2 ≤ (e.2 : Int) ∧ (e.2 : Int) ≤ (word.length : Int) - 2) →
          findBestHyphenPosition word =
            generalHyphenPosition (word.map pyLower) word.length))) ∧
    (specialWords.find? (fun en => en.1 = word.map pyLower) = none →
      ∀ n, findPrefixSplit (word.map pyLower) word.length sortedPrefixes = some n →
        findBestHyphenPosition word = n ∧
        (∃ p ∈ commonPrefixes, eligPrefix (word.map pyLower) word.length p ∧ p.length = n) ∧
        (∀ q ∈ commonPrefixes, eligPrefix (word.map pyLower) word.length q → q.length ≤ n)) ∧
    (specialWords.find? (fun en => en.1 = word.map pyLower) = none →
      findPrefixSplit (word.map pyLower) word.length sortedPrefixes = none →
      ∀ n, findSuffixSplit (word.map pyLower) word.length sortedSuffixes = some n →
        findBestHyphenPosition word = n ∧
        (∃ s ∈ commonSuffixes, eligSuffix (word.map pyLower) word.length s ∧
          word.length - s.length = n) ∧
        (∀ q ∈ commonSuffixes, eligSuffix (word.map pyLower) word.length q →
          n ≤ word.length - q.length)) ∧
    (specialWords.find? (fun en => en.1 = word.map pyLower) = none →
      findPrefixSplit (word.map pyLower) word.length sortedPrefixes = none →
      findSuffixSplit (word.map pyLower) word.length sortedSuffixes = none →
      findBestHyphenPosition word = midpointSplit word.length) ∧
    (word.length ≤ 6 → tryHyphenateWord cw word avail = none) ∧
    (word.map pyLower ∈ protectedWords → tryHyphenateWord cw word avail = none) ∧
    (¬ word.length ≤ 6 → ¬ word.map pyLower ∈ protectedWords →
      ((textWidth cw (word.take (findBestHyphenPosition word) ++ ['-']) ≤ avail →
          tryHyphenateWord cw word avail =
            some ⟨word.take (findBestHyphenPosition word) ++ ['-'],
                  word.drop (findBestHyphenPosition word),
                  textWidth cw (word.take (findBestHyphenPosition word) ++ ['-'])⟩) ∧
       (¬ textWidth cw (word.take (findBestHyphenPosition word) ++ ['-']) ≤ avail →
          tryHyphenateWord cw word avail = none))) ∧
    word.take (findBestHyphenPosition word) ++ word.drop (findBestHyphenPosition word) = word ∧
    (∀ (t : Tok) (rest : List Tok) (line : List Char) (width : ℚ),
      qAdd width (textWidth cw t.text) > avail →
      t.kind = .word → 6 < t.text.length →
      ((∀ r, tryHyphenateWord cw t.text (qSub avail width) = some r →
          fillWords cw avail (t :: rest) line width =
            (line ++ r.fitted, qAdd width r.width, ⟨r.remaining, t.kind⟩ :: rest)) ∧
       (tryHyphenateWord cw t.text (qSub avail width) = none →
          fillWords cw avail (t :: rest) line width = (line, width, t :: rest)))) := by
  have hgen : ∀ n, findPrefixSplit (word.map pyLower) word.length sortedPrefixes = some n →
      generalHyphenPosition (word.map pyLower) word.length = n := by
    intro n hn
    rw [generalHyphenPosition, hn]
  refine ⟨?_, ?_, ?_, ?_, ?_, ?_, ?_, ?_, List.take_append_drop _ _, ?_⟩
  · -- bounds
    intro hlen
    rw [findBestHyphenPosition]
    have hbound : 2 ≤ generalHyphenPosition (word.map pyLower) word.length ∧
        generalHyphenPosition (word.map pyLower) word.length + 2 ≤ word.length := by
      rw [generalHyphenPosition]
      cases hp : findPrefixSplit (word.map pyLower) word.length sortedPrefixes with
      | some n =>
        obtain ⟨p, _, ⟨_, h2, h3⟩, hl⟩ := findPrefixSplit_some _ _ _ _ hp
        dsimp only
        omega
      | none =>
        cases hs : findSuffixSplit (word.map pyLower) word.length sortedSuffixes with
        | some n =>
          obtain ⟨s, _, ⟨_, h2, h3⟩, hl⟩ := findSuffixSplit_some _ _ _ _ hs
          dsimp only
          omega
        | none =>
          dsimp only
          rw [midpointSplit]
          have h2 : 2 ≤ word.length / 2 := by omega
          rw [if_neg (by omega)]
          rw [if_neg (by omega)]
          omega
    cases hf : (specialWords.find? (fun en => en.1 = word.map pyLower)).map Prod.snd with
    | none => exact hbound
    | some pos =>
      dsimp only
      by_cases hb : 2 ≤ (pos : Int) ∧ (pos : Int) ≤ (word.length : Int) - 2
      · rw [if_pos hb]
        omega
      · rw [if_neg hb]
        exact hbound
  · -- table hit
    intro e he
    have hm : (specialWords.find? (fun en => en.1 = word.map pyLower)).map Prod.snd =
        some e.2 := by rw [he]; rfl
    constructor
    · intro hb
      rw [findBestHyphenPosition, hm]
      dsimp only
      rw [if_pos hb]
    · intro hb
      rw [findBestHyphenPosition, hm]
      dsimp only
      rw [if_neg hb]
  · -- longest prefix
    intro hnone n hp
    refine ⟨?_, ?_, ?_⟩
    · have hm : (specialWords.find? (fun en => en.1 = word.map pyLower)).map Prod.snd =
          none := by rw [hnone]; rfl
      rw [findBestHyphenPosition, hm]
      exact hgen n hp
    · obtain ⟨p, hmem, he, hl⟩ := findPrefixSplit_some _ _ _ _ hp
      exact ⟨p, sortedPrefixes_perm.mem_iff.mp hmem, he, hl⟩
    · intro q hq he
      exact findPrefixSplit_max _ _ _ sortedPrefixes_sorted n hp q
        (sortedPrefixes_perm.mem_iff.mpr hq) he
  · -- longest suffix
    intro hnone hpnone n hs
    refine ⟨?_, ?_, ?_⟩
    · have hm : (specialWords.find? (fun en => en.1 = word.map pyLower)).map Prod.snd =
          none := by rw [hnone]; rfl
      rw [findBestHyphenPosition, hm]
      rw [generalHyphenPosition, hpnone, hs]
    · obtain ⟨s, hmem, he, hl⟩ := findSuffixSplit_some _ _ _ _ hs
      exact ⟨s, sortedSuffixes_perm.mem_iff.mp hmem, he, hl⟩
    · intro q hq he
      exact findSuffixSplit_max _ _ _ sortedSuffixes_sorted n hs q
        (sortedSuffixes_perm.mem_iff.mpr hq) he
  · -- midpoint fallback
    intro hnone hpnone hsnone
    have hm : (specialWords.find? (fun en => en.1 = word.map pyLower)).map Prod.snd =
        none := by rw [hnone]; rfl
    rw [findBestHyphenPosition, hm]
    rw [generalHyphenPosition, hpnone, hsnone]
  · -- short word
    intro hshort
    rw [tryHyphenateWord, if_pos hshort]
  · -- protected word
    intro hprot
    rw [tryHyphenateWord]
    by_cases hshort : word.length ≤ 6
    · rw [if_pos hshort]
    · rw [if_neg hshort, if_pos hprot]
  · -- fit / no fit
    intro hshort hprot
    constructor
    · intro hfits
      rw [tryHyphenateWord, if_neg hshort, if_neg hprot]
      rw [if_pos hfits]
    · intro hfits
      rw [tryHyphenateWord, if_neg hshort, if_neg hprot]
      rw [if_neg hfits]
  · -- fillWords integration
    intro t rest line width hover hkind hlen
    constructor
    · intro r hr
      rw [fillWords, if_pos hover, if_pos ⟨hkind, hlen⟩, hr]
    · intro hr
      rw [fillWords, if_pos hover, if_pos ⟨hkind, hlen⟩, hr]

/-- Witness for `hyphenation_spec`: a curated-table word (`implementation` →
`im-`), a prefix word (`university` → `un-`), a suffix word (`happiness` →
`happi-ness`), a midpoint word (`aaaaaaa`), a protected word (`multihead`),
a short word (`hello`), and a fitting/non-fitting hyphenation of
`development` inside the fill loop. -/
theorem hyphenation_spec_witness :
    findBestHyphenPosition "implementation".data = 2 ∧
    findBestHyphenPosition "university".data = 2 ∧
    findBestHyphenPosition "happiness".data = 5 ∧
    findBestHyphenPosition (List.replicate 7 'a') = midpointSplit 7 ∧
    tryHyphenateWord cwDemo "multihead".data 698 = none ∧
    tryHyphenateWord cwDemo "hello".data 698 = none ∧
    tryHyphenateWord cwDemo "development".data 500 =
      some ⟨"develo-".data, "pment".data, 70⟩ ∧
    fillWords cwDemo 698 [⟨"development".data, .word⟩] "x".data 600 =
      ("x".data ++ "develo-".data, qAdd 600 70, ⟨"pment".data, .word⟩ :: []) ∧
    fillWords cwDemo 698 [⟨"development".data, .word⟩] "x".data 650 =
      ("x".data, 650, ⟨"development".data, .word⟩ :: []) := by
  refine ⟨?_, ?_, ?_, ?_, ?_, ?_, ?_, ?_, ?_⟩
  · exact ((hyphenation_spec cwDemo "implementation".data 0).2.1 ("implementation".data, 2)
      (by decide)).1 (by decide)
  · exact ((hyphenation_spec cwDemo "university".data 0).2.2.1 (by decide) 2 (by decide)).1
  · exact ((hyphenation_spec cwDemo "happiness".data 0).2.2.2.1 (by decide) (by decide) 5
      (by decide)).1
  · exact (hyphenation_spec cwDemo (List.replicate 7 'a') 0).2.2.2.2.1 (by decide) (by decide)
      (by decide)
  · exact (hyphenation_spec cwDemo "multihead".data 698).2.2.2.2.2.2.1 (by decide)
  · exact (hyphenation_spec cwDemo "hello".data 698).2.2.2.2.2.1 (by decide)
  · exact (((hyphenation_spec cwDemo "development".data 500).2.2.2.2.2.2.2.1 (by decide)
      (by decide)).1 (by decide)).trans (by decide)
  · exact ((hyphenation_spec cwDemo (List.replicate 0 'a') 698).2.2.2.2.2.2.2.2.2
      ⟨"development".data, .word⟩ [] "x".data 600 (by decide) rfl (by decide)).1
      ⟨"develo-".data, "pment".data, 70⟩ (by decide)
  · exact ((hyphenation_spec cwDemo (List.replicate 0 'a') 698).2.2.2.2.2.2.2.2.2
      ⟨"development".data, .word⟩ [] "x".data 650 (by decide) rfl (by decide)).2 (by decide)

/-! ## C2: conservation of text

The three elementary transformations the composer ever applies to the text
stream, each invertible given its position: inserting a hyphen mark
(hyphenation), relocating one character rightwards across a run of
spaces/punctuation (the orphan-punctuation fix-up), and dropping a whitespace
character (`strip`/`lstrip` normalization).  "Undoing inserted hyphen marks
and leading-punctuation relocations reconstructs the input up to whitespace
normalization" is formalized as: the concatenated output is reachable from
the concatenated input by these steps. -/
inductive ConsStep : List Char → List Char → Prop where
  | hyphen (pre post : List Char) : ConsStep (pre ++ post) (pre ++ '-' :: post)
  | relocate (pre : List Char) (c : Char) (mid post : List Char)
      (hmid : ∀ d ∈ mid, d = ' ' ∨ d ∈ punctChars) :
      ConsStep (pre ++ c :: (mid ++ post)) (pre ++ mid ++ c :: post)
  | dropWS (pre : List Char) (c : Char) (post : List Char) (hc : isPySpace c = true) :
      ConsStep (pre ++ c :: post) (pre ++ post)

/-- Reachability by conservation steps. -/
def Conserv : List Char → List Char → Prop := Relation.ReflTransGen ConsStep

theorem Conserv.refl (a : List Char) : Conserv a a := Relation.ReflTransGen.refl

theorem Conserv.trans {a b c : List Char} (h1 : Conserv a b) (h2 : Conserv b c) :
    Conserv a c := Relation.ReflTransGen.trans h1 h2

/-- A conservation step stays one under any surrounding context. -/
theorem consStep_context {a b : List Char} (x y : List Char) (h : ConsStep a b) :
    ConsStep (x ++ a ++ y) (x ++ b ++ y) := by
  cases h with
  | hyphen pre post =>
    have := ConsStep.hyphen (x ++ pre) (post ++ y)
    simpa [List.append_assoc] using this
  | relocate pre c mid post hmid =>
    have := ConsStep.relocate (x ++ pre) c mid (post ++ y) hmid
    simpa [List.append_assoc] using this
  | dropWS pre c post hc =>
    have := ConsStep.dropWS (x ++ pre) c (post ++ y) hc
    simpa [List.append_assoc] using this

/-- Conservation is preserved by surrounding context. -/
theorem conserv_context {a b : List Char} (x y : List Char) (h : Conserv a b) :
    Conserv (x ++ a ++ y) (x ++ b ++ y) := by
  induction h with
  | refl => exact Relation.ReflTransGen.refl
  | tail _ hstep ih => exact Relation.ReflTransGen.tail ih (consStep_context x y hstep)

/-- A run of whitespace characters may be dropped anywhere. -/
theorem conserv_drop_ws (d : List Char) (hd : ∀ c ∈ d, isPySpace c = true) :
    ∀ (x y : List Char), Conserv (x ++ d ++ y) (x ++ y) := by
  induction d with
  | nil => intro x y; simp; exact Conserv.refl _
  | cons c d ih =>
    intro x y
    refine Relation.ReflTransGen.head ?_ (ih (fun e he => hd e (List.mem_cons_of_mem _ he)) x y)
    have := ConsStep.dropWS x c (d ++ y) (hd c (by simp))
    simpa [List.append_assoc] using this

/-- `lstrip` inside a left context is conservation. -/
theorem conserv_lstrip (x s : List Char) : Conserv (x ++ s) (x ++ pyLStrip s) := by
  have hsplit : s.takeWhile isPySpace ++ pyLStrip s = s :=
    List.takeWhile_append_dropWhile isPySpace s
  have hws : ∀ c ∈ s.takeWhile isPySpace, isPySpace c = true := fun c hc =>
    List.mem_takeWhile_imp hc
  have h := conserv_drop_ws (s.takeWhile isPySpace) hws x (pyLStrip s)
  conv_lhs => rw [← hsplit]
  rw [← List.append_assoc]
  exact h

/-- `strip` decomposes the string into whitespace, the stripped core, and
whitespace. -/
theorem strip_decomp (s : List Char) :
    ∃ t1 t2, s = t1 ++ pyStrip s ++ t2 ∧
      (∀ c ∈ t1, isPySpace c = true) ∧ (∀ c ∈ t2, isPySpace c = true) := by
  have hA := List.takeWhile_append_dropWhile isPySpace s
  have hB := List.takeWhile_append_dropWhile isPySpace (s.dropWhile isPySpace).reverse
  refine ⟨s.takeWhile isPySpace,
    ((s.dropWhile isPySpace).reverse.takeWhile isPySpace).reverse, ?_, ?_, ?_⟩
  · have hu : pyStrip s ++ ((s.dropWhile isPySpace).reverse.takeWhile isPySpace).reverse
        = s.dropWhile isPySpace := by
      rw [pyStrip, ← List.reverse_append, hB, List.reverse_reverse]
    rw [List.append_assoc, hu, hA]
  · exact fun c hc => List.mem_takeWhile_imp hc
  · intro c hc
    rw [List.mem_reverse] at hc
    exact List.mem_takeWhile_imp hc

/-- `strip` is conservation. -/
theorem conserv_strip (s : List Char) : Conserv s (pyStrip s) := by
  obtain ⟨t1, t2, hs, h1, h2⟩ := strip_decomp s
  have hstep1 : Conserv ([] ++ t1 ++ (pyStrip s ++ t2)) ([] ++ (pyStrip s ++ t2)) :=
    conserv_drop_ws t1 h1 [] (pyStrip s ++ t2)
  have hstep2 : Conserv (pyStrip s ++ t2 ++ []) (pyStrip s ++ []) :=
    conserv_drop_ws t2 h2 (pyStrip s) []
  have e1 : s = [] ++ t1 ++ (pyStrip s ++ t2) := by
    conv_lhs => rw [hs]
    simp [List.append_assoc]
  have hfinal : Conserv ([] ++ t1 ++ (pyStrip s ++ t2)) (pyStrip s) := by
    refine hstep1.trans ?_
    simpa using hstep2
  rw [← e1] at hfinal
  exact hfinal

/-- All-whitespace strings conserve to the empty string. -/
theorem conserv_to_nil_of_strip_nil {s : List Char} (h : pyStrip s = []) :
    Conserv s [] := by
  have := conserv_strip s
  rwa [h] at this

/-- With sufficient fuel (as supplied by `tokenize`), the tokenization
concatenates back to the input. -/
theorem tokenizeFuel_concat :
    ∀ (fuel : Nat) (l : List Char), l.length ≤ fuel →
      concatToks (tokenizeFuel fuel l) = l := by
  intro fuel
  induction fuel with
  | zero =>
    intro l hl
    cases l with
    | nil => rfl
    | cons c r => simp at hl
  | succ fuel ih =>
    intro l hl
    cases l with
    | nil => rfl
    | cons c r =>
      rw [tokenizeFuel]
      by_cases hch : isChineseChar c
      · rw [if_pos hch]
        simp only [concatToks, List.map_cons, List.flatten_cons] at ih ⊢
        rw [ih r (by simpa using hl)]
        try rfl
      · rw [if_neg hch]
        by_cases hsp : c = ' '
        · rw [if_pos hsp]
          simp only [concatToks, List.map_cons, List.flatten_cons] at ih ⊢
          rw [ih r (by simpa using hl)]
          rw [hsp]
          try rfl
        · rw [if_neg hsp]
          by_cases hpu : c ∈ punctChars
          · rw [if_pos hpu]
            simp only [concatToks, List.map_cons, List.flatten_cons] at ih ⊢
            rw [ih r (by simpa using hl)]
            try rfl
          · rw [if_neg hpu]
            simp only [concatToks, List.map_cons, List.flatten_cons] at ih ⊢
            rw [ih (r.dropWhile isWordChar)
              (le_trans (List.dropWhile_suffix isWordChar).sublist.length_le (by simpa using hl))]
            simp [List.takeWhile_append_dropWhile]

/-- The tokenization concatenates back to the input. -/
theorem tokenize_concat (l : List Char) : concatToks (tokenize l) = l :=
  tokenizeFuel_concat l.length l (le_refl _)

/-- Shape of a successful hyphenation: the fitted part is the word up to the
chosen split point plus the hyphen mark, the remainder is the rest. -/
theorem tryHyphenateWord_shape (cw : Char → ℚ) (word : List Char) (avail : ℚ)
    (r : HyphenRes) (h : tryHyphenateWord cw word avail = some r) :
    r.fitted = word.take (findBestHyphenPosition word) ++ ['-'] ∧
    r.remaining = word.drop (findBestHyphenPosition word) := by
  rw [tryHyphenateWord] at h
  by_cases h6 : word.length ≤ 6
  · rw [if_pos h6] at h; exact Option.noConfusion h
  · rw [if_neg h6] at h
    by_cases hp : word.map pyLower ∈ protectedWords
    · rw [if_pos hp] at h; exact Option.noConfusion h
    · rw [if_neg hp] at h
      by_cases hf : textWidth cw (word.take (findBestHyphenPosition word) ++ ['-']) ≤ avail
      · rw [if_pos hf] at h
        cases h
        exact ⟨rfl, rfl⟩
      · rw [if_neg hf] at h
        exact Option.noConfusion h

/-- Conservation through the greedy fill loop: the accepted text plus the
remaining tokens' concatenation is the accumulator plus the input tokens'
concatenation — exactly, except that a hyphenation leaves the accepted text
with one freshly inserted trailing `'-'`. -/
theorem fillWords_conserve (cw : Char → ℚ) (avail : ℚ) :
    ∀ (ts : List Tok) (acc : List Char) (w : ℚ),
      (let out := fillWords cw avail ts acc w
       out.1 ++ concatToks out.2.2 = acc ++ concatToks ts ∨
       ∃ l0, out.1 = l0 ++ ['-'] ∧ l0 ++ concatToks out.2.2 = acc ++ concatToks ts) := by
  intro ts
  induction ts with
  | nil =>
    intro acc w
    left
    rfl
  | cons t rest ih =>
    intro acc w
    rw [fillWords]
    by_cases hover : qAdd w (textWidth cw t.text) > avail
    · rw [if_pos hover]
      by_cases hel : t.kind = TokKind.word ∧ 6 < t.text.length
      · rw [if_pos hel]
        cases hh : tryHyphenateWord cw t.text (qSub avail w) with
        | none =>
          left
          rfl
        | some r =>
          right
          obtain ⟨hfit, hrem⟩ := tryHyphenateWord_shape cw t.text (qSub avail w) r hh
          refine ⟨acc ++ t.text.take (findBestHyphenPosition t.text), ?_, ?_⟩
          · dsimp only
            rw [hfit, List.append_assoc]
          · dsimp only
            simp only [concatToks, List.map_cons, List.flatten_cons, hrem]
            rw [List.append_assoc, ← List.append_assoc (t.text.take (findBestHyphenPosition t.text)),
              List.take_append_drop]
            try simp [concatToks]
      · rw [if_neg hel]
        left
        rfl
    · rw [if_neg hover]
      have hrec := ih (acc ++ t.text) (qAdd w (textWidth cw t.text))
      dsimp only at hrec ⊢
      rcases hrec with h | ⟨l0, h1, h2⟩
      · left
        rw [h]
        simp [concatToks, List.append_assoc]
      · right
        refine ⟨l0, h1, ?_⟩
        rw [h2]
        simp [concatToks, List.append_assoc]

/-- Conservation through one `fill_line_handwritten` call: the produced line
text followed by the returned remainder is reachable from the input text by
conservation steps. -/
theorem fillLine_conserve (cw : Char → ℚ) (cfg : LayoutConfig)
    (text : List Char) (css : CssClass) :
    Conserv text ((fillLineHandwritten cw cfg text css).1 ++
      (fillLineHandwritten cw cfg text css).2.1) := by
  rw [fillLineHandwritten]
  by_cases hstrip : pyStrip text = []
  · rw [if_pos hstrip]
    simpa using conserv_to_nil_of_strip_nil hstrip
  · rw [if_neg hstrip]
    cases hfw : fillWords cw (qSub cfg.textAreaWidth (lineIndent cfg css)) (tokenize text) [] 0 with
    | mk line0 wr =>
      obtain ⟨width0, rest⟩ := wr
      have hcons := fillWords_conserve cw (qSub cfg.textAreaWidth (lineIndent cfg css))
        (tokenize text) [] 0
      rw [hfw] at hcons
      dsimp only at hcons
      rw [tokenize_concat] at hcons
      simp only [List.nil_append] at hcons
      -- `base`: Conserv text (line0 ++ concatToks rest)
      have base : Conserv text (line0 ++ concatToks rest) := by
        rcases hcons with h | ⟨l0, h1, h2⟩
        · rw [h]
          exact Conserv.refl _
        · rw [← h2, h1]
          exact Relation.ReflTransGen.single
            (by simpa [List.append_assoc] using ConsStep.hyphen l0 (concatToks rest))
      dsimp only
      cases rest with
      | nil =>
        simp only [concatToks, List.map_nil, List.flatten_nil, List.append_nil] at base ⊢
        have : pyLStrip ([] : List Char) = [] := rfl
        rw [this]
        simpa using base
      | cons t ts =>
        dsimp only
        cases hc : concatToks (t :: ts) with
        | nil =>
          rw [hc] at base
          refine base.trans ?_
          have : pyLStrip ([] : List Char) = [] := rfl
          rw [this]
          exact Conserv.refl _
        | cons r0 rs =>
          rw [hc] at base
          dsimp only
          by_cases hp : r0 ∈ punctChars
          · rw [if_pos hp]
            cases hsplit : splitLastEligible line0 with
            | none =>
              dsimp only
              exact base.trans (conserv_lstrip line0 (r0 :: rs))
            | some pxs =>
              obtain ⟨p, x, s⟩ := pxs
              dsimp only
              obtain ⟨hdec, helig, hafter⟩ := splitLastEligible_spec line0 p x s hsplit
              have hmid : ∀ d ∈ s, d = ' ' ∨ d ∈ punctChars := by
                intro d hd
                have h2 := hafter d hd
                simp only [isEligibleChar] at h2
                simp at h2
                by_cases hd2 : d = ' '
                · exact Or.inl hd2
                · exact Or.inr (h2 hd2)
              have hstep : ConsStep (p ++ x :: (s ++ (r0 :: rs))) (p ++ s ++ x :: (r0 :: rs)) :=
                ConsStep.relocate p x s (r0 :: rs) hmid
              refine base.trans ?_
              have e : line0 ++ r0 :: rs = p ++ x :: (s ++ (r0 :: rs)) := by
                rw [hdec]
                simp [List.append_assoc]
              rw [e]
              refine Relation.ReflTransGen.head hstep ?_
              have := conserv_lstrip (p ++ s) (x :: (r0 :: rs))
              simpa [List.append_assoc] using this
          · rw [if_neg hp]
            exact base.trans (conserv_lstrip line0 (r0 :: rs))

/-- Concatenation of the texts of a line list. -/
def concatLines (ls : List LayoutLine) : List Char := (ls.map LayoutLine.text).flatten

/-- Concatenation of the texts of a block list. -/
def concatQueue (q : List ContentBlock) : List Char := (q.map ContentBlock.text).flatten

/-- Concatenation of all line texts of a page list. -/
def concatPages (ps : List Page) : List Char :=
  (ps.map (fun p => concatLines p.lines)).flatten

/-- Every character of an all-whitespace string is whitespace. -/
theorem all_ws_of_strip_nil {s : List Char} (h : pyStrip s = []) :
    ∀ c ∈ s, isPySpace c = true := by
  obtain ⟨t1, t2, hs, h1, h2⟩ := strip_decomp s
  rw [h] at hs
  intro c hc
  rw [hs] at hc
  simp at hc
  rcases hc with hc | hc
  · exact h1 c hc
  · exact h2 c hc

/-- All-whitespace strings conserve to nothing. -/
theorem conserv_nil_of_all_ws {s : List Char} (h : ∀ c ∈ s, isPySpace c = true) :
    Conserv s [] := by
  have := conserv_drop_ws s h [] []
  simpa using this

/-- The class fix-up of `compose_block` does not change any line's text. -/
theorem fixLastClass_texts :
    ∀ (ls : List LayoutLine), (fixLastClass ls).map LayoutLine.text = ls.map LayoutLine.text := by
  intro ls
  induction ls with
  | nil => rfl
  | cons a tail ih =>
    cases tail with
    | nil =>
      rw [fixLastClass]
      by_cases hc : a.cssClass = .bt1 ∨ a.cssClass = .bt2 ∨ a.cssClass = .zw3
      · rw [if_pos hc]
      · rw [if_neg hc]
        simp
    | cons b tail2 =>
      rw [fixLastClass]
      simp only [List.map_cons]
      rw [ih]
      simp

/-- Conservation through the paragraph loop of `compose_block`. -/
theorem composeBlockLoop_conserve (cw : Char → ℚ) (cfg : LayoutConfig) :
    ∀ (fuel : Nat) (rem : List Char) (isFirst : Bool) (n : Nat) (ls : List LayoutLine),
      composeBlockLoop cw cfg fuel rem isFirst n = some ls →
      Conserv rem (concatLines ls) := by
  intro fuel
  induction fuel with
  | zero =>
    intro rem isFirst n ls h
    rw [composeBlockLoop.eq_def] at h
    dsimp only at h
    by_cases hr : rem = []
    · rw [if_pos hr] at h
      cases h
      rw [hr]
      exact Conserv.refl _
    · rw [if_neg hr] at h
      exact Option.noConfusion h
  | succ fuel ih =>
    intro rem isFirst n ls h
    rw [composeBlockLoop.eq_def] at h
    dsimp only at h
    by_cases hr : rem = []
    · rw [if_pos hr] at h
      cases h
      rw [hr]
      exact Conserv.refl _
    · rw [if_neg hr] at h
      set lcss := (if isFirst = true then CssClass.zw1
        else if textWidth cw rem ≤
            qSub cfg.textAreaWidth (if isFirst = true then cfg.paragraphIndent else 0) then
          CssClass.zw3
        else CssClass.zw2) with hlcss
      set r := fillLineHandwritten cw cfg rem lcss with hrdef
      have hline : Conserv rem (r.1 ++ r.2.1) := by
        rw [hrdef]
        exact fillLine_conserve cw cfg rem lcss
      by_cases h1 : r.1 = [] ∧ r.2.1 = []
      · rw [if_pos h1] at h
        cases h
        rw [h1.1, h1.2] at hline
        simpa [concatLines] using hline
      · rw [if_neg h1] at h
        by_cases h2 : pyStrip r.1 = [] ∧ pyStrip r.2.1 = []
        · rw [if_pos h2] at h
          cases h
          have hws : ∀ c ∈ r.1 ++ r.2.1, isPySpace c = true := by
            intro c hc
            rcases List.mem_append.mp hc with hc | hc
            · exact all_ws_of_strip_nil h2.1 c hc
            · exact all_ws_of_strip_nil h2.2 c hc
          have := hline.trans (conserv_nil_of_all_ws hws)
          simpa [concatLines] using this
        · rw [if_neg h2] at h
          cases hrec : composeBlockLoop cw cfg fuel r.2.1 false (n + 1) with
          | none => rw [hrec] at h; exact Option.noConfusion h
          | some restLines =>
            rw [hrec] at h
            dsimp only at h
            cases h
            have hih := ih r.2.1 false (n + 1) restLines hrec
            have hlift : Conserv (r.1 ++ r.2.1 ++ []) (r.1 ++ concatLines restLines ++ []) :=
              conserv_context r.1 [] hih
            refine hline.trans ?_
            simpa [concatLines, List.append_assoc] using hlift

/-- Conservation through `compose_block`. -/
theorem composeBlock_conserve (cw : Char → ℚ) (cfg : LayoutConfig)
    (fuel : Nat) (block : ContentBlock) (n : Nat) (bls : List LayoutLine) (used : Nat)
    (h : composeBlock cw cfg fuel block n = some (bls, used)) :
    Conserv block.text (concatLines bls) := by
  cases hty : block.type with
  | h1 =>
    rw [composeBlock, hty] at h
    cases h
    simp only [concatLines, titleLayoutLine, List.map_cons, List.map_nil, List.flatten_cons,
      List.flatten_nil, List.append_nil]
    exact Conserv.refl _
  | h2 =>
    rw [composeBlock, hty] at h
    cases h
    simp only [concatLines, titleLayoutLine, List.map_cons, List.map_nil, List.flatten_cons,
      List.flatten_nil, List.append_nil]
    exact Conserv.refl _
  | paragraph =>
    rw [composeBlock, hty] at h
    cases hloop : composeBlockLoop cw cfg fuel (pyStrip block.text) (!block.isContinuation) n with
    | none => rw [hloop] at h; exact Option.noConfusion h
    | some ls0 =>
      rw [hloop] at h
      dsimp only at h
      cases h
      refine (conserv_strip block.text).trans ?_
      have := composeBlockLoop_conserve cw cfg fuel (pyStrip block.text)
        (!block.isContinuation) n ls0 hloop
      simpa [concatLines, fixLastClass_texts] using this

/-- The fitted prefix is literally a `take` of the block's lines. -/
theorem takeFit_take (maxL current : Nat) :
    ∀ (bls : List LayoutLine) (k : Nat) (fit : List LayoutLine) (consumed : Nat),
      takeFit maxL current bls k = (fit, consumed) → fit = bls.take (consumed - k) := by
  intro bls
  induction bls with
  | nil =>
    intro k fit consumed h
    rw [takeFit] at h
    cases h
    simp
  | cons l ls ih =>
    intro k fit consumed h
    rw [takeFit] at h
    by_cases hk : current + k ≤ maxL
    · rw [if_pos hk] at h
      cases hr : takeFit maxL current ls (k + 1) with
      | mk f2 c2 =>
        have hih := ih (k + 1) f2 c2 hr
        have hge := (takeFit_spec maxL current ls (k + 1) f2 c2 hr).1
        rw [hr] at h
        dsimp only at h
        injection h with hf hc
        subst hf
        subst hc
        have : c2 - k = (c2 - (k + 1)) + 1 := by omega
        rw [this, List.take_succ_cons, ← hih]
    · rw [if_neg hk] at h
      cases h
      simp

/-- Conservation through the `compose_page` loop: the final line list extends
the accumulator, and the concatenated input queue conserves to the new lines'
text followed by the remaining queue's text. -/
theorem composePageLoop_conserve (cw : Char → ℚ) (cfg : LayoutConfig)
    (maxL blockFuel : Nat) :
    ∀ (fuel : Nat) (queue : List ContentBlock) (lines : List LayoutLine) (current : Nat)
      (out : List LayoutLine × List ContentBlock),
      composePageLoop cw cfg maxL blockFuel fuel queue lines current = some out →
      ∃ newLines, out.1 = lines ++ newLines ∧
        Conserv (concatQueue queue) (concatLines newLines ++ concatQueue out.2) := by
  intro fuel
  induction fuel with
  | zero =>
    intro queue lines current out h
    cases queue with
    | nil =>
      rw [composePageLoop.eq_def] at h
      dsimp only at h
      cases h
      exact ⟨[], by simp, by simpa [concatQueue, concatLines] using Conserv.refl []⟩
    | cons q qs =>
      rw [composePageLoop.eq_def] at h
      dsimp only at h
      exact Option.noConfusion h
  | succ fuel ih =>
    intro queue lines current out h
    cases queue with
    | nil =>
      rw [composePageLoop.eq_def] at h
      dsimp only at h
      cases h
      exact ⟨[], by simp, by simpa [concatQueue, concatLines] using Conserv.refl []⟩
    | cons q qs =>
      rw [composePageLoop.eq_def] at h
      dsimp only at h
      by_cases hty : q.type = .h1 ∨ q.type = .h2
      · rw [if_pos hty] at h
        by_cases hfull : current + 1 > maxL
        · rw [if_pos hfull] at h
          cases h
          exact ⟨[], by simp, by simpa [concatLines] using Conserv.refl _⟩
        · rw [if_neg hfull] at h
          have hcb : composeBlock cw cfg blockFuel q current =
              some ([titleLayoutLine cw cfg q current], 2) := by
            rcases hty with h2 | h2 <;> rw [composeBlock, h2]
          rw [hcb] at h
          dsimp only at h
          obtain ⟨nl, hout, hcons⟩ := ih qs (lines ++ [titleLayoutLine cw cfg q current])
            (current + 2) out h
          refine ⟨[titleLayoutLine cw cfg q current] ++ nl, by rw [hout]; simp, ?_⟩
          have hlift : Conserv (q.text ++ concatQueue qs ++ [])
              (q.text ++ (concatLines nl ++ concatQueue out.2) ++ []) :=
            conserv_context q.text [] hcons
          simp only [concatQueue, concatLines, List.map_cons, List.map_append,
            List.flatten_cons, List.flatten_append, titleLayoutLine] at hlift ⊢
          simpa [List.append_assoc] using hlift
      · rw [if_neg hty] at h
        by_cases hroom : (maxL : Int) - current + 1 ≤ 0
        · rw [if_pos hroom] at h
          cases h
          exact ⟨[], by simp, by simpa [concatLines] using Conserv.refl _⟩
        · rw [if_neg hroom] at h
          cases hcb : composeBlock cw cfg blockFuel q current with
          | none => rw [hcb] at h; exact Option.noConfusion h
          | some br =>
            obtain ⟨bls, used⟩ := br
            have hbc : Conserv q.text (concatLines bls) :=
              composeBlock_conserve cw cfg blockFuel q current bls used hcb
            rw [hcb] at h
            dsimp only at h
            cases hfit : takeFit maxL current bls 0 with
            | mk fit consumed =>
              rw [hfit] at h
              dsimp only at h
              have htake : fit = bls.take consumed := by
                have := takeFit_take maxL current bls 0 fit consumed hfit
                simpa using this
              by_cases hfne : fit ≠ []
              · rw [if_pos hfne] at h
                by_cases hpart : consumed < bls.length
                · rw [if_pos hpart] at h
                  -- continuation block carries exactly the leftover lines' text
                  have hsplitb : concatLines bls =
                      concatLines fit ++ concatLines (bls.drop consumed) := by
                    rw [htake]
                    simp only [concatLines]
                    rw [← List.flatten_append, ← List.map_append, List.take_append_drop]
                  by_cases hfullp : current + consumed ≥ maxL
                  · rw [if_pos hfullp] at h
                    cases h
                    refine ⟨fit, rfl, ?_⟩
                    have hq : Conserv (q.text ++ concatQueue qs ++ [])
                        ((concatLines fit ++ concatLines (bls.drop consumed)) ++
                          concatQueue qs ++ []) := by
                      have := conserv_context ([] : List Char) (concatQueue qs ++ []) hbc
                      rw [hsplitb] at this
                      simpa [List.append_assoc] using this
                    simp only [concatQueue, List.map_cons, List.flatten_cons]
                    simpa [concatLines, List.map_drop, List.append_assoc] using hq
                  · rw [if_neg hfullp] at h
                    obtain ⟨nl, hout, hcons⟩ := ih _ (lines ++ fit) (current + consumed) out h
                    refine ⟨fit ++ nl, by rw [hout]; simp, ?_⟩
                    have hq : Conserv (q.text ++ concatQueue qs)
                        ((concatLines fit ++ concatLines (bls.drop consumed)) ++
                          concatQueue qs) := by
                      have := conserv_context ([] : List Char) (concatQueue qs) hbc
                      rw [hsplitb] at this
                      simpa using this
                    have hlift : Conserv
                        (concatLines fit ++
                          (concatLines (bls.drop consumed) ++ concatQueue qs) ++ [])
                        (concatLines fit ++ (concatLines nl ++ concatQueue out.2) ++ []) :=
                      conserv_context (concatLines fit) [] hcons
                    have hmid : Conserv (q.text ++ concatQueue qs)
                        (concatLines fit ++ (concatLines (bls.drop consumed) ++ concatQueue qs)) := by
                      simpa [List.append_assoc] using hq
                    have hfin : Conserv
                        (concatLines fit ++ (concatLines (bls.drop consumed) ++ concatQueue qs))
                        (concatLines fit ++ (concatLines nl ++ concatQueue out.2)) := by
                      simpa using hlift
                    have hall := hmid.trans hfin
                    simpa [concatQueue, concatLines, List.map_append, List.flatten_append,
                      List.append_assoc] using hall
                · rw [if_neg hpart] at h
                  have hfitall : fit = bls := by
                    rw [htake]
                    exact List.take_of_length_le (by omega)
                  by_cases hfullp : current + consumed ≥ maxL
                  · rw [if_pos hfullp] at h
                    cases h
                    refine ⟨fit, rfl, ?_⟩
                    have := conserv_context ([] : List Char) (concatQueue qs) hbc
                    rw [← hfitall] at this
                    simp only [concatQueue, List.map_cons, List.flatten_cons]
                    simpa [List.append_assoc] using this
                  · rw [if_neg hfullp] at h
                    obtain ⟨nl, hout, hcons⟩ := ih qs (lines ++ fit) (current + consumed) out h
                    refine ⟨fit ++ nl, by rw [hout]; simp, ?_⟩
                    have hq : Conserv (q.text ++ concatQueue qs)
                        (concatLines fit ++ concatQueue qs) := by
                      have := conserv_context ([] : List Char) (concatQueue qs) hbc
                      rw [← hfitall] at this
                      simpa using this
                    have hlift : Conserv (concatLines fit ++ (concatQueue qs) ++ [])
                        (concatLines fit ++ (concatLines nl ++ concatQueue out.2) ++ []) :=
                      conserv_context (concatLines fit) [] hcons
                    simp only [concatQueue, List.map_cons, List.flatten_cons]
                    refine Conserv.trans (by simpa using hq) ?_
                    simpa [concatLines, List.append_assoc] using hlift
              · rw [if_neg hfne] at h
                by_cases hfull2 : current ≥ maxL
                · rw [if_pos hfull2] at h
                  cases h
                  exact ⟨[], by simp, by simpa [concatLines] using Conserv.refl _⟩
                · rw [if_neg hfull2] at h
                  exact ih (q :: qs) lines current out h

/-- Conservation through `compose_page`. -/
theorem composePage_conserve (cw : Char → ℚ) (cfg : LayoutConfig)
    (blockFuel pageFuel : Nat) (queue : List ContentBlock) (n : Nat)
    (page : Page) (rem : List ContentBlock)
    (h : composePage cw cfg blockFuel pageFuel queue n = some (page, rem)) :
    Conserv (concatQueue queue) (concatLines page.lines ++ concatQueue rem) := by
  unfold composePage at h
  dsimp only at h
  cases hl : composePageLoop cw cfg (pageCapacity cfg n) blockFuel pageFuel queue [] 1 with
  | none => rw [hl] at h; exact Option.noConfusion h
  | some out =>
    obtain ⟨ls, rm⟩ := out
    have hcons := composePageLoop_conserve cw cfg (pageCapacity cfg n) blockFuel pageFuel
      queue [] 1 (ls, rm) hl
    rw [hl] at h
    dsimp only at h
    cases h
    obtain ⟨nl, hout, hc⟩ := hcons
    dsimp only at hout
    rw [List.nil_append] at hout
    subst hout
    exact hc

/-- Conservation through the `compose_document` loop. -/
theorem composeDocLoop_conserve (cw : Char → ℚ) (cfg : LayoutConfig)
    (blockFuel pageFuel : Nat) :
    ∀ (iters : Nat) (queue : List ContentBlock) (pageNumber : Nat)
      (out : List Page × List ContentBlock),
      composeDocLoop cw cfg blockFuel pageFuel iters queue pageNumber = some out →
      Conserv (concatQueue queue) (concatPages out.1 ++ concatQueue out.2) := by
  intro iters
  induction iters with
  | zero =>
    intro queue pageNumber out h
    cases queue with
    | nil =>
      rw [composeDocLoop] at h
      cases h
      exact Conserv.refl _
    | cons q qs =>
      rw [composeDocLoop] at h
      cases hp : composePage cw cfg blockFuel pageFuel (q :: qs) pageNumber with
      | none => rw [hp] at h; exact Option.noConfusion h
      | some pr =>
        obtain ⟨page, rem⟩ := pr
        have hpc := composePage_conserve cw cfg blockFuel pageFuel (q :: qs) pageNumber
          page rem hp
        rw [hp] at h
        dsimp only at h
        by_cases hc : 20 < pageNumber + 1
        · rw [if_pos hc] at h
          cases h
          simpa [concatPages, List.append_assoc] using hpc
        · rw [if_neg hc] at h
          exact Option.noConfusion h
  | succ iters ih =>
    intro queue pageNumber out h
    cases queue with
    | nil =>
      rw [composeDocLoop] at h
      cases h
      exact Conserv.refl _
    | cons q qs =>
      rw [composeDocLoop] at h
      cases hp : composePage cw cfg blockFuel pageFuel (q :: qs) pageNumber with
      | none => rw [hp] at h; exact Option.noConfusion h
      | some pr =>
        obtain ⟨page, rem⟩ := pr
        have hpc := composePage_conserve cw cfg blockFuel pageFuel (q :: qs) pageNumber
          page rem hp
        rw [hp] at h
        dsimp only at h
        by_cases hc : 20 < pageNumber + 1
        · rw [if_pos hc] at h
          cases h
          simpa [concatPages, List.append_assoc] using hpc
        · rw [if_neg hc] at h
          cases hr : composeDocLoop cw cfg blockFuel pageFuel iters rem (pageNumber + 1) with
          | none => rw [hr] at h; exact Option.noConfusion h
          | some out2 =>
            obtain ⟨ps, r⟩ := out2
            rw [hr] at h
            dsimp only at h
            cases h
            have hrec := ih rem (pageNumber + 1) (ps, r) hr
            have hlift : Conserv (concatLines page.lines ++ concatQueue rem ++ [])
                (concatLines page.lines ++ (concatPages ps ++ concatQueue r) ++ []) :=
              conserv_context (concatLines page.lines) [] hrec
            refine hpc.trans ?_
            simpa [concatPages, List.append_assoc] using hlift

/-- **C2 amended**: if document composition terminates, the concatenation of
all produced line texts across all pages, *followed by the texts of the
blocks still queued* — empty unless the 20-page cap truncated the run — is
reachable from the concatenation of all input block texts by conservation
steps only: inserting a hyphen mark, relocating one character across
spaces/punctuation (the orphan-punctuation fix-up), and dropping whitespace.
Undoing the inserted hyphens and relocations therefore reconstructs the
input exactly, up to whitespace normalization — no other character is ever
lost or duplicated.  The original claim's pages-only reconstruction fails
precisely at cap-truncating inputs, where the unconsumed blocks' characters
are missing from the pages (see
`composeDocument_conservation_counterexample`). -/
theorem composeDocument_conservation (cw : Char → ℚ) (cfg : LayoutConfig)
    (blockFuel pageFuel : Nat) (blocks : List ContentBlock)
    (pages : List Page) (remQ : List ContentBlock)
    (h : composeDocLoop cw cfg blockFuel pageFuel 20 blocks 1 = some (pages, remQ)) :
    composeDocument cw cfg blockFuel pageFuel blocks = some pages ∧
    Conserv (concatQueue blocks) (concatPages pages ++ concatQueue remQ) := by
  constructor
  · rw [composeDocument, h]
    rfl
  · exact composeDocLoop_conserve cw cfg blockFuel pageFuel 20 blocks 1 (pages, remQ) h

/-- Witness for `composeDocument_conservation` on a one-paragraph document. -/
theorem composeDocument_conservation_witness :
    composeDocument cwDemo defaultConfig 10 10 [⟨.paragraph, "ab".data, false⟩] =
      some [⟨[⟨"ab".data, .zw3, mkRat 318 5, mkRat 159 1745, 1, "1".data⟩], 1, 1, 26⟩] ∧
    Conserv (concatQueue [⟨.paragraph, "ab".data, false⟩])
      (concatPages [⟨[⟨"ab".data, .zw3, mkRat 318 5, mkRat 159 1745, 1, "1".data⟩], 1, 1, 26⟩] ++
        concatQueue []) :=
  composeDocument_conservation cwDemo defaultConfig 10 10 [⟨.paragraph, "ab".data, false⟩]
    [⟨[⟨"ab".data, .zw3, mkRat 318 5, mkRat 159 1745, 1, "1".data⟩], 1, 1, 26⟩] []
    (by decide)

/-- A single conservation step never changes the number of occurrences of a
non-whitespace, non-hyphen character: hyphenation only inserts `-`, the
orphan-punctuation relocation only permutes, and whitespace normalization
only drops whitespace. -/
theorem consStep_count (c : Char) {a b : List Char} (hns : isPySpace c = false)
    (hnh : ¬ c = '-') (h : ConsStep a b) : b.count c = a.count c := by
  cases h with
  | hyphen pre post =>
    simp [List.count_append, List.count_cons, beq_iff_eq, hnh]
  | relocate pre x mid post hmid =>
    simp only [List.count_append, List.count_cons]
    omega
  | dropWS pre x post hc =>
    have hne : ¬ c = x := by
      intro he
      rw [he, hc] at hns
      exact Bool.noConfusion hns
    simp [List.count_append, List.count_cons, beq_iff_eq, hne]

/-- Reachability by conservation steps preserves the occurrence count of any
non-whitespace, non-hyphen character. -/
theorem conserv_count (c : Char) {a b : List Char} (hns : isPySpace c = false)
    (hnh : ¬ c = '-') (h : Conserv a b) : b.count c = a.count c := by
  induction h with
  | refl => rfl
  | tail _ hstep ih => rw [consStep_count c hns hnh hstep, ih]

/-- **C2 counterexample** (refuting pages-only reconstruction for every
input): on a document of 261 one-character `h1` headings, composition stops
at the 20-page cap with one block unconsumed; the input contains 261 copies
of the heading character while the produced pages contain only 260, and
since no conservation step changes the occurrence count of a non-whitespace,
non-hyphen character, no sequence of undo steps can recover the input
concatenation from the page texts alone. -/
theorem composeDocument_conservation_counterexample :
    List.count 'T' (concatQueue (hBlocks 261)) = 261 ∧
    List.count 'T'
      (concatPages ((composeDocument cwDemo defaultConfig 2 300 (hBlocks 261)).getD [])) = 260 ∧
    ¬ Conserv (concatQueue (hBlocks 261))
      (concatPages ((composeDocument cwDemo defaultConfig 2 300 (hBlocks 261)).getD [])) := by
  have h261 : List.count 'T' (concatQueue (hBlocks 261)) = 261 := by decide
  have h260 : List.count 'T'
      (concatPages ((composeDocument cwDemo defaultConfig 2 300 (hBlocks 261)).getD [])) = 260 :=
    by decide
  refine ⟨h261, h260, fun h => ?_⟩
  have hcnt := conserv_count 'T' (by decide) (by decide) h
  rw [h260, h261] at hcnt
  exact absurd hcnt (by decide)

/-! ## C9: determinism -/

/-- **C9**: document composition is a pure function of `(width model, config,
blocks)`: the whole composer embeds without any nondeterministic primitive
(the source's interleaved `print` logging does not feed back into any
result), so two invocations on the same input yield equal — bit-identical,
field for field — page sequences; and the result depends only on the *values*
of the blocks (`type`, `text`, `isContinuation`), not on their object
identity: composing freshly rebuilt copies of the blocks (as
`compose_document`'s `content_blocks.copy()` isolates the caller's list from
the queue mutation in `compose_page`) gives the same pages. -/
theorem composeDocument_deterministic (cw : Char → ℚ) (cfg : LayoutConfig)
    (blockFuel pageFuel : Nat) (blocks : List ContentBlock) :
    composeDocument cw cfg blockFuel pageFuel blocks =
      composeDocument cw cfg blockFuel pageFuel blocks ∧
    composeDocument cw cfg blockFuel pageFuel
        (blocks.map (fun b => ⟨b.type, b.text, b.isContinuation⟩)) =
      composeDocument cw cfg blockFuel pageFuel blocks := by
  refine ⟨rfl, ?_⟩
  congr 1
  have : ∀ (l : List ContentBlock),
      l.map (fun b => (⟨b.type, b.text, b.isContinuation⟩ : ContentBlock)) = l := by
    intro l
    induction l with
    | nil => rfl
    | cons b t ih => simp [ih]
  exact this blocks

end Handwritten
